import Mathlib

/-!
Verification development for the Site Survey form-composition engine.

Shallow embedding of the conditional form-composition core:
  - src/visible_if.py   (condition evaluator, is_visible)
  - src/overrides.py    (merge_overrides)
  - src/form_renderer.py (apply_overrides)
  - src/main.py         (field_visible and the PDF exporter visibility decision)
  - src/data_loader.py  (schema validation of visible_if references)

JSON-shaped Python values are modelled by the inductive type PyVal.
Numbers are modelled by Int (the repository's schema and answer data are
JSON integers, strings, booleans, lists and string-keyed objects); numeric
coercion (Python float()) targets Rat so that decimal strings such as "7.5"
coerce faithfully.  Dicts are insertion-ordered association lists with
string keys, as produced by json.load.  Fallible code paths (places where
CPython would raise) are modelled with Option.
-/

/-- Model of the Python/JSON values handled by the survey engine. -/
inductive PyVal where
  | none
  | bool (b : Bool)
  | int (n : Int)
  | str (s : String)
  | list (xs : List PyVal)
  | dict (es : List (String × PyVal))

/-- A Python dict with string keys, in insertion order. -/
abbrev PyDict := List (String × PyVal)

/-- Python dict lookup d.get(k): first entry with the given key. -/
def dGet (es : PyDict) (k : String) : Option PyVal :=
  (es.find? (fun p => p.1 == k)).map (fun p => p.2)

/-- Python dict lookup d.get(k) returning None when the key is absent. -/
def dGetN (es : PyDict) (k : String) : PyVal :=
  (dGet es k).getD .none

/-- Python key-membership test (k in d). -/
def hasKey (es : PyDict) (k : String) : Bool :=
  es.any (fun p => p.1 == k)

/-- Python dict assignment d[k] = v: overwrite in place (keeping the entry
position) when the key exists, otherwise append. -/
def dSet (es : PyDict) (k : String) (v : PyVal) : PyDict :=
  if hasKey es k then es.map (fun p => if p.1 == k then (k, v) else p)
  else es ++ [(k, v)]

/-- Python dict.update(news): assign each entry of news in order. -/
def pyDictUpdate (d : PyDict) (news : PyDict) : PyDict :=
  news.foldl (fun acc p => dSet acc p.1 p.2) d

/-- Python truthiness of a value. -/
def pyTruthy : PyVal → Bool
  | .none => false
  | .bool b => b
  | .int n => n != 0
  | .str s => s ≠ ""
  | .list xs => !xs.isEmpty
  | .dict es => !es.isEmpty

/-- Whitespace characters removed by Python str.strip(). -/
def pyIsSpace (c : Char) : Bool :=
  c = ' ' || c = '\t' || c = '\n' || c = '\r' || c = '\x0b' || c = '\x0c'

/-- Python str.strip(): drop whitespace from both ends. -/
def pstrip (s : String) : String :=
  ⟨((s.toList.dropWhile pyIsSpace).reverse.dropWhile pyIsSpace).reverse⟩

/-- Value of a decimal digit string (assumed to contain digits only). -/
def digitsToNat (cs : List Char) : Nat :=
  cs.foldl (fun a c => a * 10 + (c.toNat - 48)) 0

/-- Parse an unsigned decimal literal (digits with an optional single dot),
the shapes of numeric strings Python float() accepts in this repository's
data.  Exponent and infinity forms are rejected (none of the schema or
answer data uses them). -/
def parseUnsigned (cs : List Char) : Option ℚ :=
  let ip := cs.takeWhile (fun c => c.isDigit)
  let rest := cs.dropWhile (fun c => c.isDigit)
  match rest with
  | [] => if ip.isEmpty then Option.none else some ((digitsToNat ip : ℤ) : ℚ)
  | '.' :: fp =>
      if fp.all (fun c => c.isDigit) && (!ip.isEmpty || !fp.isEmpty) then
        some (((digitsToNat ip : ℤ) : ℚ) + ((digitsToNat fp : ℤ) : ℚ) / ((10 : ℚ) ^ fp.length))
      else Option.none
  | _ => Option.none

/-- Parse a signed decimal string, modelling Python float(s) on the string
shapes occurring in this repository (returns none where float() raises). -/
def parseDec (s : String) : Option ℚ :=
  match s.toList with
  | '+' :: cs => parseUnsigned cs
  | '-' :: cs => (parseUnsigned cs).map (fun q => -q)
  | cs => parseUnsigned cs

/-- Embedding of _coerce_number from src/visible_if.py lines 6-16: bools
coerce to 0/1, numbers pass through, non-empty strings are parsed after
stripping; everything else (and a failed parse) yields None. -/
def coerceNumber : PyVal → Option ℚ
  | .bool b => some (if b then 1 else 0)
  | .int n => some ((n : ℚ))
  | .str s => if pstrip s ≠ "" then parseDec (pstrip s) else Option.none
  | _ => Option.none

mutual

/-- Python str() of a value (repr-style rendering for nested containers).
For strings inside containers Python picks quote style and escapes by
content; the repository's data contains no quotes or escapes in values, so
plain single quotes are used. -/
def pyStr : PyVal → String
  | .none => "None"
  | .bool b => if b then "True" else "False"
  | .int n => toString n
  | .str s => s
  | .list xs => "[" ++ pyReprJoin xs ++ "]"
  | .dict es => "\x7b" ++ pyReprEntries es ++ "\x7d"

/-- Python repr() of a value (strings are quoted). -/
def pyRepr : PyVal → String
  | .none => "None"
  | .bool b => if b then "True" else "False"
  | .int n => toString n
  | .str s => "'" ++ s ++ "'"
  | .list xs => "[" ++ pyReprJoin xs ++ "]"
  | .dict es => "\x7b" ++ pyReprEntries es ++ "\x7d"

/-- Comma-joined reprs of list elements. -/
def pyReprJoin : List PyVal → String
  | [] => ""
  | [x] => pyRepr x
  | x :: xs => pyRepr x ++ ", " ++ pyReprJoin xs

/-- Comma-joined reprs of dict entries. -/
def pyReprEntries : List (String × PyVal) → String
  | [] => ""
  | [(k, v)] => "'" ++ k ++ "': " ++ pyRepr v
  | (k, v) :: es => "'" ++ k ++ "': " ++ pyRepr v ++ ", " ++ pyReprEntries es

end

mutual

/-- Python equality (==) on modelled values: None equals only None, bools
and ints compare numerically across the two types (True == 1), strings
structurally, lists elementwise, dicts as mappings (order-insensitive). -/
def pyEq : PyVal → PyVal → Bool
  | .none, .none => true
  | .bool a, .bool b => a == b
  | .bool a, .int n => (if a then (1 : Int) else 0) == n
  | .int n, .bool a => n == (if a then (1 : Int) else 0)
  | .int m, .int n => m == n
  | .str a, .str b => a == b
  | .list xs, .list ys => pyEqList xs ys
  | .dict xs, .dict ys =>
      pyEqInto xs ys && ys.all (fun q => xs.any (fun p => p.1 == q.1))
  | _, _ => false

/-- Elementwise Python equality of lists. -/
def pyEqList : List PyVal → List PyVal → Bool
  | [], [] => true
  | x :: xs, y :: ys => pyEq x y && pyEqList xs ys
  | _, _ => false

/-- Every entry of the first dict maps, under the second dict, to an equal
value (key coverage of the other direction is checked separately). -/
def pyEqInto : List (String × PyVal) → PyDict → Bool
  | [], _ => true
  | (k, v) :: es, ys =>
      (match dGet ys k with
       | some w => pyEq v w
       | Option.none => false) && pyEqInto es ys

end

/-- Tests whether a value is a given Python string (the comparisons
op == "eq" etc. in _op_eval, false for every non-string op). -/
def isStrV (v : PyVal) (s : String) : Bool :=
  match v with
  | .str t => t == s
  | _ => false

/-- Python substring test (needle in hay) for strings. -/
def strContainsSub (hay needle : String) : Bool :=
  needle == "" || (hay.splitOn needle).length > 1

/-- Embedding of the "contains" arm of _op_eval (src/visible_if.py lines
27-37): membership of rhs in a list, in a dict's keys, or as a substring of
the stringified lhs; a None lhs gives false.  An unhashable rhs against a
dict raises TypeError in CPython, caught by the except arm, also false. -/
def pyContains (lhs rhs : PyVal) : Bool :=
  match lhs with
  | .none => false
  | .list xs => xs.any (fun x => pyEq x rhs)
  | .dict es => (match rhs with | .str s => hasKey es s | _ => false)
  | _ => strContainsSub (pyStr lhs) (pyStr rhs)

/-- Embedding of the "in" arm of _op_eval (src/visible_if.py lines 40-50). -/
def pyIn (lhs rhs : PyVal) : Bool :=
  match rhs with
  | .none => false
  | .list xs => xs.any (fun x => pyEq x lhs)
  | .dict es => (match lhs with | .str s => hasKey es s | _ => false)
  | _ => strContainsSub (pyStr rhs) (pyStr lhs)

/-- Embedding of the "nin" arm of _op_eval (src/visible_if.py lines 52-62);
an unhashable lhs against a dict raises TypeError in CPython, caught by the
except arm, giving true. -/
def pyNin (lhs rhs : PyVal) : Bool :=
  match rhs with
  | .none => true
  | .list xs => !xs.any (fun x => pyEq x lhs)
  | .dict es => (match lhs with | .str s => !hasKey es s | _ => true)
  | _ => !strContainsSub (pyStr rhs) (pyStr lhs)

/-- Embedding of _op_eval from src/visible_if.py lines 19-91.  The op is an
arbitrary value; an op equal to none of the recognized operator strings
falls through every branch and yields false (the final return). -/
def opEval (lhs op rhs : PyVal) : Bool :=
  if isStrV op "eq" then pyEq lhs rhs
  else if isStrV op "neq" then !(pyEq lhs rhs)
  else if isStrV op "contains" then pyContains lhs rhs
  else if isStrV op "in" then pyIn lhs rhs
  else if isStrV op "nin" then pyNin lhs rhs
  else
    match coerceNumber lhs, coerceNumber rhs with
    | some ln, some rn =>
        if isStrV op "gt" then decide (ln > rn)
        else if isStrV op "gte" then decide (ln ≥ rn)
        else if isStrV op "lt" then decide (ln < rn)
        else if isStrV op "lte" then decide (ln ≤ rn)
        else false
    | _, _ =>
        let ls := match lhs with | .none => "" | v => pyStr v
        let rs := match rhs with | .none => "" | v => pyStr v
        if isStrV op "gt" then decide (rs < ls)
        else if isStrV op "gte" then !(decide (ls < rs))
        else if isStrV op "lt" then decide (ls < rs)
        else if isStrV op "lte" then !(decide (rs < ls))
        else false

/-- Context lookup ctx.get(fld) with an arbitrary key value: only string
keys can match the string-keyed context.  A list or dict key would raise
TypeError (unhashable) in CPython; no claim exercises that case, and other
hashable non-string keys simply miss, giving None. -/
def ctxLookup (ctx : PyDict) (k : PyVal) : PyVal :=
  match k with
  | .str s => dGetN ctx s
  | _ => .none

/-- Embedding of _eval_clause from src/visible_if.py lines 94-99: op
defaults to "eq" only when the "op" key is absent; the compared value is
always the "value" entry (None when absent). -/
def evalClause (ctx : PyDict) (clause : PyDict) : Bool :=
  let fld := dGetN clause "field"
  let op := (dGet clause "op").getD (.str "eq")
  let val := dGetN clause "value"
  opEval (ctxLookup ctx fld) op val

/-- Context construction from evaluate (src/visible_if.py lines 114-121):
copy the state and inject the virtual fields that are not None. -/
def injectCtx (state : PyDict) (c mk md : Option String) : PyDict :=
  let ctx := state
  let ctx := match c with | some s => dSet ctx "__category__" (.str s) | Option.none => ctx
  let ctx := match mk with | some s => dSet ctx "__make__" (.str s) | Option.none => ctx
  match md with | some s => dSet ctx "__model__" (.str s) | Option.none => ctx

/-- A dict value found by lookup is structurally smaller than the dict. -/
theorem sizeOf_dGet {es : PyDict} {k : String} {v : PyVal} (h : dGet es k = some v) :
    sizeOf v < sizeOf es := by
  unfold dGet at h
  rcases Option.map_eq_some'.mp h with ⟨pr, hfind, hv⟩
  have hmem := List.mem_of_find?_eq_some hfind
  have h1 : sizeOf pr < sizeOf es := List.sizeOf_lt_of_mem hmem
  subst hv
  cases pr with
  | mk a b => simp [Prod.mk.sizeOf_spec] at h1 ⊢; omega

/-- A dGetN result that is a list pins down the underlying lookup. -/
theorem dGetN_eq_list {es : PyDict} {k : String} {xs : List PyVal}
    (h : dGetN es k = .list xs) : dGet es k = some (.list xs) := by
  unfold dGetN at h
  cases hg : dGet es k with
  | none => rw [hg] at h; exact absurd h (by simp [Option.getD])
  | some v => rw [hg] at h; simp [Option.getD] at h; rw [h]

/-- The element list of a list payload found in a dict is smaller than the
dict value built from those entries. -/
theorem sizeOf_payload_lt {es : PyDict} {k : String} {xs : List PyVal}
    (h : dGetN es k = .list xs) : sizeOf xs < 1 + sizeOf es := by
  have h1 := sizeOf_dGet (dGetN_eq_list h)
  simp only [PyVal.list.sizeOf_spec] at h1
  omega

mutual

/-- Embedding of evaluate from src/visible_if.py lines 102-151.  A falsy
condition is true; group objects with an "all"/"any" key fold over their
sub-expressions with the injected context as the new state; a dict with a
"field" key is a clause; a bare list is an implicit all-group; anything
else is visible.  A group payload that is not a list either iterates
one-character/key strings, every one of which evaluates to true (truthy
string or dict payloads), or raises TypeError in CPython (truthy numeric
payloads - no claim exercises that case); both are modelled by the
payload-truthiness answer in the non-list arms. -/
def evaluate (cond : PyVal) (state : PyDict) (c mk md : Option String) : Bool :=
  if pyTruthy cond = false then true
  else
    let ctx := injectCtx state c mk md
    match cond with
    | .dict es =>
        if hasKey es "all" then
          match h2 : dGetN es "all" with
          | .list xs => evalConj xs ctx c mk md
          | _ => true
        else if hasKey es "any" then
          match h3 : dGetN es "any" with
          | .list xs => evalDisj xs ctx c mk md
          | v => pyTruthy v
        else if hasKey es "field" then evalClause ctx es
        else true
    | .list xs => evalConj xs ctx c mk md
    | _ => true
termination_by sizeOf cond
decreasing_by
  · simp only [PyVal.dict.sizeOf_spec]; exact sizeOf_payload_lt h2
  · simp only [PyVal.dict.sizeOf_spec]; exact sizeOf_payload_lt h3
  · simp only [PyVal.list.sizeOf_spec]; omega

/-- Conjunctive fold of evaluate over sub-expressions (the all-group and
bare-list loops of evaluate, with short-circuit). -/
def evalConj (xs : List PyVal) (state : PyDict) (c mk md : Option String) : Bool :=
  match xs with
  | [] => true
  | x :: rest => evaluate x state c mk md && evalConj rest state c mk md
termination_by sizeOf xs
decreasing_by
  · simp only [List.cons.sizeOf_spec]; omega
  · simp only [List.cons.sizeOf_spec]; omega

/-- Disjunctive fold of evaluate over sub-expressions (the any-group loop
of evaluate, with short-circuit). -/
def evalDisj (xs : List PyVal) (state : PyDict) (c mk md : Option String) : Bool :=
  match xs with
  | [] => false
  | x :: rest => evaluate x state c mk md || evalDisj rest state c mk md
termination_by sizeOf xs
decreasing_by
  · simp only [List.cons.sizeOf_spec]; omega
  · simp only [List.cons.sizeOf_spec]; omega

end

/-- Embedding of is_visible from src/visible_if.py lines 154-155: evaluate
the field's visible_if entry (None when absent) against the state with the
virtual fields injected. -/
def is_visible (field : PyDict) (state : PyDict) (c mk md : Option String) : Bool :=
  evaluate (dGetN field "visible_if") state c mk md

/-- Embedding of field_visible from src/main.py lines 772-779 (the legacy
PDF visibility check): a falsy condition is visible; otherwise the answer
for the condition's "field" entry is compared by Python == with its
"equals" entry.  The result is none where CPython raises (cond.get on a
truthy non-dict condition). -/
def field_visible (field answers : PyDict) : Option Bool :=
  let cond := dGetN field "visible_if"
  if pyTruthy cond = false then some true
  else
    match cond with
    | .dict es => some (pyEq (ctxLookup answers (dGetN es "field")) (dGetN es "equals"))
    | _ => Option.none

/-- The PDF exporter's per-field visibility decision, src/main.py lines
798-800 (write_section_to_pdf_QA): evaluate on a truthy visible_if,
otherwise fall back to legacy field_visible. -/
def exporter_visible (field answers : PyDict) (c mk md : Option String) : Option Bool :=
  let cond := dGetN field "visible_if"
  if pyTruthy cond then some (evaluate cond answers c mk md)
  else field_visible field answers

/-- A falsy condition always evaluates to true. -/
theorem evaluate_falsy {cond : PyVal} (s : PyDict) (c mk md : Option String)
    (h : pyTruthy cond = false) : evaluate cond s c mk md = true := by
  unfold evaluate
  simp [h]

/-- Unfolding of the conjunctive fold on the empty list. -/
theorem evalConj_nil (state : PyDict) (c mk md : Option String) :
    evalConj [] state c mk md = true := by
  unfold evalConj
  rfl

/-- Unfolding of the conjunctive fold on a cons cell. -/
theorem evalConj_cons (x : PyVal) (rest : List PyVal) (state : PyDict) (c mk md : Option String) :
    evalConj (x :: rest) state c mk md
      = (evaluate x state c mk md && evalConj rest state c mk md) := by
  conv_lhs => rw [evalConj]

/-- Unfolding of the disjunctive fold on the empty list. -/
theorem evalDisj_nil (state : PyDict) (c mk md : Option String) :
    evalDisj [] state c mk md = false := by
  unfold evalDisj
  rfl

/-- Unfolding of the disjunctive fold on a cons cell. -/
theorem evalDisj_cons (x : PyVal) (rest : List PyVal) (state : PyDict) (c mk md : Option String) :
    evalDisj (x :: rest) state c mk md
      = (evaluate x state c mk md || evalDisj rest state c mk md) := by
  conv_lhs => rw [evalDisj]

/-- A dict condition with a field key and no group keys evaluates as a
clause against the injected context. -/
theorem evaluate_clause (es : PyDict) (state : PyDict) (c mk md : Option String)
    (hall : hasKey es "all" = false) (hany : hasKey es "any" = false)
    (hf : hasKey es "field" = true) :
    evaluate (.dict es) state c mk md = evalClause (injectCtx state c mk md) es := by
  have hne : es ≠ [] := by intro h; subst h; simp [hasKey] at hf
  have ht : pyTruthy (.dict es) = true := by
    cases es with
    | nil => exact absurd rfl hne
    | cons a l => simp [pyTruthy, List.isEmpty]
  unfold evaluate
  simp [ht, hall, hany, hf]

/-- A dict condition whose all-payload is a list folds conjunctively over
the injected context. -/
theorem evaluate_all_list (es : PyDict) (xs : List PyVal) (state : PyDict)
    (c mk md : Option String) (hall : hasKey es "all" = true)
    (hxs : dGetN es "all" = .list xs) :
    evaluate (.dict es) state c mk md = evalConj xs (injectCtx state c mk md) c mk md := by
  have hne : es ≠ [] := by intro h; subst h; simp [hasKey] at hall
  have ht : pyTruthy (.dict es) = true := by
    cases es with
    | nil => exact absurd rfl hne
    | cons a l => simp [pyTruthy, List.isEmpty]
  unfold evaluate
  simp [ht, hall]
  split
  · rename_i xs2 heq
    rw [hxs] at heq
    injection heq with h3
    rw [h3]
  · rename_i hno
    exact absurd hxs (fun hc => hno xs hc)

/-- A dict condition whose any-payload is a list folds disjunctively over
the injected context. -/
theorem evaluate_any_list (es : PyDict) (xs : List PyVal) (state : PyDict)
    (c mk md : Option String) (hall : hasKey es "all" = false)
    (hany : hasKey es "any" = true) (hxs : dGetN es "any" = .list xs) :
    evaluate (.dict es) state c mk md = evalDisj xs (injectCtx state c mk md) c mk md := by
  have hne : es ≠ [] := by intro h; subst h; simp [hasKey] at hany
  have ht : pyTruthy (.dict es) = true := by
    cases es with
    | nil => exact absurd rfl hne
    | cons a l => simp [pyTruthy, List.isEmpty]
  unfold evaluate
  simp [ht, hall, hany]
  split
  · rename_i xs2 heq
    rw [hxs] at heq
    injection heq with h3
    rw [h3]
  · rename_i hno
    exact absurd hxs (fun hc => hno xs hc)

/-- A bare list condition is an implicit all-group over the injected
context (for the empty list both sides are vacuously true). -/
theorem evaluate_bare_list (xs : List PyVal) (state : PyDict) (c mk md : Option String) :
    evaluate (.list xs) state c mk md = evalConj xs (injectCtx state c mk md) c mk md := by
  cases xs with
  | nil =>
      rw [evaluate_falsy _ _ _ _ (by simp [pyTruthy, List.isEmpty]), evalConj_nil]
  | cons x rest =>
      have ht : pyTruthy (.list (x :: rest)) = true := by simp [pyTruthy, List.isEmpty]
      unfold evaluate
      simp [ht]

/-- A truthy dict condition with none of the recognized keys is visible. -/
theorem evaluate_unknown_dict (es : PyDict) (state : PyDict) (c mk md : Option String)
    (h1 : hasKey es "all" = false) (h2 : hasKey es "any" = false)
    (h3 : hasKey es "field" = false) :
    evaluate (.dict es) state c mk md = true := by
  cases hes : es with
  | nil => exact evaluate_falsy _ _ _ _ (by simp [pyTruthy, List.isEmpty])
  | cons a l =>
      have ht : pyTruthy (.dict (a :: l)) = true := by simp [pyTruthy, List.isEmpty]
      rw [hes] at h1 h2 h3
      unfold evaluate
      simp [ht, h1, h2, h3]

example : evaluate (.dict [("field", .str "floor_type"), ("equals", .str "Other")])
    [("floor_type", .str "Other")] Option.none Option.none Option.none = false := by
  rw [evaluate_clause _ _ _ _ _ (by decide) (by decide) (by decide)]
  decide

example : evaluate (.dict [("field", .str "f"), ("op", .str "gt"), ("value", .int 5)])
    [("f", .str "7")] Option.none Option.none Option.none = true := by
  rw [evaluate_clause _ _ _ _ _ (by decide) (by decide) (by decide)]
  decide

/-- A successful lookup implies key membership. -/
theorem hasKey_of_dGet {es : PyDict} {k : String} {v : PyVal}
    (h : dGet es k = some v) : hasKey es k = true := by
  unfold dGet at h
  rcases Option.map_eq_some'.mp h with ⟨pr, hfind, _⟩
  have hmem := List.mem_of_find?_eq_some hfind
  have hp := List.find?_some hfind
  exact List.any_eq_true.mpr ⟨pr, hmem, hp⟩

/-- An absent key yields no lookup result. -/
theorem dGet_eq_none_of_not_hasKey {es : PyDict} {k : String}
    (h : hasKey es k = false) : dGet es k = Option.none := by
  unfold dGet
  rw [List.find?_eq_none.mpr]
  · rfl
  · intro p hp hpk
    have h2 : hasKey es k = true := List.any_eq_true.mpr ⟨p, hp, hpk⟩
    rw [h] at h2
    exact Bool.false_ne_true h2

/-- Python equality against None holds exactly for None. -/
theorem pyEq_none_right (v : PyVal) :
    pyEq v .none = (match v with | PyVal.none => true | _ => false) := by
  cases v <;> rfl

/-- C1: Renderer/exporter visibility agreement: for every field definition
and every answer context, with the same category, make and model injected,
the PDF exporter's decision (evaluate on a truthy visible_if, otherwise
the legacy field_visible fallback) equals the interactive renderer's
is_visible decision. -/
theorem C1_renderer_exporter_visibility_agree (field answers : PyDict)
    (c mk md : Option String) :
    exporter_visible field answers c mk md = some (is_visible field answers c mk md) := by
  unfold exporter_visible is_visible field_visible
  cases ht : pyTruthy (dGetN field "visible_if") with
  | true => simp [ht]
  | false => simp [ht, evaluate_falsy _ _ _ _ ht]

/-- A condition shape that is neither a clause (a dict with a field key),
a group (a dict with an all or any key), nor a list. -/
def condShapeUnknown : PyVal → Bool
  | .dict es => !(hasKey es "all" || hasKey es "any" || hasKey es "field")
  | .list _ => false
  | _ => true

/-- Any condition of unknown shape evaluates to true (fail-open). -/
theorem evaluate_shape_unknown (cond : PyVal) (state : PyDict) (c mk md : Option String)
    (h : condShapeUnknown cond = true) : evaluate cond state c mk md = true := by
  cases cond with
  | none => exact evaluate_falsy _ _ _ _ rfl
  | bool b =>
      cases b with
      | false => exact evaluate_falsy _ _ _ _ rfl
      | true => unfold evaluate; simp [pyTruthy]
  | int n =>
      by_cases hn : n = 0
      · subst hn; exact evaluate_falsy _ _ _ _ (by simp [pyTruthy])
      · unfold evaluate; simp [pyTruthy, hn]
  | str s =>
      by_cases hs : s = ""
      · subst hs; exact evaluate_falsy _ _ _ _ (by simp [pyTruthy])
      · unfold evaluate; simp [pyTruthy, hs]
  | list xs => simp [condShapeUnknown] at h
  | dict es =>
      simp only [condShapeUnknown, Bool.not_eq_true', Bool.or_eq_false_iff] at h
      exact evaluate_unknown_dict _ _ _ _ _ h.1.1 h.1.2 h.2

/-- C6: Evaluator degenerate-condition semantics: a None (or any falsy)
condition is true; an empty all-group is true; an empty any-group is
false; a bare list is evaluated as an implicit all-group; and a condition
whose shape is neither a clause, a group, nor a list evaluates to true
(fail-open) rather than raising. -/
theorem C6_evaluator_degenerate_semantics :
    (∀ (state : PyDict) (c mk md : Option String),
        evaluate .none state c mk md = true)
    ∧ (∀ (cond : PyVal) (state : PyDict) (c mk md : Option String),
        pyTruthy cond = false → evaluate cond state c mk md = true)
    ∧ (∀ (state : PyDict) (c mk md : Option String),
        evaluate (.dict [("all", .list [])]) state c mk md = true)
    ∧ (∀ (state : PyDict) (c mk md : Option String),
        evaluate (.dict [("any", .list [])]) state c mk md = false)
    ∧ (∀ (xs : List PyVal) (state : PyDict) (c mk md : Option String),
        evaluate (.list xs) state c mk md
          = evaluate (.dict [("all", .list xs)]) state c mk md)
    ∧ (∀ (cond : PyVal) (state : PyDict) (c mk md : Option String),
        condShapeUnknown cond = true → evaluate cond state c mk md = true) := by
  refine ⟨?_, ?_, ?_, ?_, ?_, ?_⟩
  · intro state c mk md
    exact evaluate_falsy _ _ _ _ rfl
  · intro cond state c mk md h
    exact evaluate_falsy _ _ _ _ h
  · intro state c mk md
    rw [evaluate_all_list [("all", .list [])] [] state c mk md (by decide) rfl, evalConj_nil]
  · intro state c mk md
    rw [evaluate_any_list [("any", .list [])] [] state c mk md (by decide) (by decide) rfl,
      evalDisj_nil]
  · intro xs state c mk md
    rw [evaluate_bare_list,
      evaluate_all_list [("all", .list xs)] xs state c mk md rfl rfl]
  · intro cond state c mk md h
    exact evaluate_shape_unknown _ _ _ _ _ h

/-- Witness for C6 at concrete inputs: a falsy int condition and an
unrecognized dict shape are both visible. -/
theorem C6_witness :
    evaluate (.int 0) [("x", .int 1)] Option.none Option.none Option.none = true
    ∧ evaluate (.dict [("mystery", .int 3)]) [] (some "cat") Option.none Option.none = true := by
  constructor
  · exact C6_evaluator_degenerate_semantics.2.1 (.int 0) [("x", .int 1)] _ _ _ (by decide)
  · exact C6_evaluator_degenerate_semantics.2.2.2.2.2 (.dict [("mystery", .int 3)]) [] _ _ _
      (by decide)

/-- Ordering-operator semantics transcribed from the specification (spec
section 4.1): attempt numeric coercion of both sides; when both coerce,
compare numerically; when either fails, fall back to lexicographic
comparison of the string representations, treating None as the empty
string. -/
def specOrdCompare (lhs op rhs : PyVal) : Bool :=
  match coerceNumber lhs, coerceNumber rhs with
  | some a, some b =>
      if isStrV op "gt" then decide (a > b)
      else if isStrV op "gte" then decide (a ≥ b)
      else if isStrV op "lt" then decide (a < b)
      else decide (a ≤ b)
  | _, _ =>
      let ls := match lhs with | .none => "" | v => pyStr v
      let rs := match rhs with | .none => "" | v => pyStr v
      if isStrV op "gt" then decide (rs < ls)
      else if isStrV op "gte" then !(decide (ls < rs))
      else if isStrV op "lt" then decide (ls < rs)
      else !(decide (rs < ls))

/-- C7: Ordering-operator semantics: for the four ordering operators the
clause evaluation coerces both sides to numbers (booleans to 0/1) and
compares numerically when both coerce, falling back to lexicographic
comparison of string representations (None as empty string); and the
spec's concrete instance: gt with value 5 against answer "7" is true. -/
theorem C7_ordering_operator_semantics :
    (∀ (lhs rhs op : PyVal),
        (op = PyVal.str "gt" ∨ op = PyVal.str "gte" ∨ op = PyVal.str "lt"
          ∨ op = PyVal.str "lte") →
        opEval lhs op rhs = specOrdCompare lhs op rhs)
    ∧ (∀ b : Bool, coerceNumber (.bool b) = some (if b then 1 else 0))
    ∧ evaluate (.dict [("field", .str "f"), ("op", .str "gt"), ("value", .int 5)])
        [("f", .str "7")] Option.none Option.none Option.none = true := by
  refine ⟨?_, ?_, ?_⟩
  · intro lhs rhs op hop
    rcases hop with h | h | h | h <;> subst h <;> rfl
  · intro b
    rfl
  · rw [evaluate_clause _ _ _ _ _ (by decide) (by decide) (by decide)]
    decide

/-- Witness for C7 at a concrete input: a non-coercible left side against
a numeric right side falls back to string comparison. -/
theorem C7_witness :
    opEval (.str "abc") (.str "lt") (.int 2) =
      specOrdCompare (.str "abc") (.str "lt") (.int 2) :=
  C7_ordering_operator_semantics.1 (.str "abc") (.int 2) (.str "lt")
    (Or.inr (Or.inr (Or.inl rfl)))

/-- C9 counterexample: the clause with field f and op neq but no value key
has no value entry, and the referenced field f is absent from the context;
the claim as stated predicts true (absent field), but evaluate yields
false (the missing value is compared with neq, not eq). -/
theorem C9_counterexample :
    hasKey [("field", PyVal.str "f"), ("op", PyVal.str "neq")] "value" = false
    ∧ dGet ([] : PyDict) "f" = Option.none
    ∧ evaluate (.dict [("field", .str "f"), ("op", .str "neq")]) []
        Option.none Option.none Option.none = false := by
  refine ⟨by decide, rfl, ?_⟩
  rw [evaluate_clause _ _ _ _ _ (by decide) (by decide) (by decide)]
  decide

/-- C9 (amended): a clause with no value key whose op entry is absent or
eq is evaluated as an equality comparison against None: for every context
it is true exactly when the referenced field is absent from the injected
context or its value is None, regardless of any equals entry. -/
theorem C9_no_value_clause_is_none_check (ies : PyDict) (state : PyDict)
    (c mk md : Option String) (f : String)
    (hall : hasKey ies "all" = false) (hany : hasKey ies "any" = false)
    (hf : dGet ies "field" = some (.str f))
    (hop : dGet ies "op" = Option.none ∨ dGet ies "op" = some (.str "eq"))
    (hval : hasKey ies "value" = false) :
    evaluate (.dict ies) state c mk md
      = (match dGet (injectCtx state c mk md) f with
         | Option.none => true
         | some v => pyEq v .none) := by
  rw [evaluate_clause _ _ _ _ _ hall hany (hasKey_of_dGet hf)]
  simp only [evalClause]
  have hfld : dGetN ies "field" = .str f := by unfold dGetN; rw [hf]; rfl
  have hvalN : dGetN ies "value" = PyVal.none := by
    unfold dGetN; rw [dGet_eq_none_of_not_hasKey hval]; rfl
  have hopeq : (dGet ies "op").getD (.str "eq") = PyVal.str "eq" := by
    rcases hop with h | h <;> rw [h] <;> rfl
  rw [hfld, hvalN, hopeq]
  show pyEq (dGetN (injectCtx state c mk md) f) .none = _
  unfold dGetN
  cases dGet (injectCtx state c mk md) f with
  | none => rfl
  | some v => rfl

/-- Witness for C9 (amended) at the repository's legacy clause shape: the
floor_type clause with a Concrete answer evaluates to false. -/
theorem C9_witness :
    evaluate (.dict [("field", .str "floor_type"), ("equals", .str "Other")])
      [("floor_type", .str "Concrete")] Option.none Option.none Option.none = false := by
  have h := C9_no_value_clause_is_none_check
    [("field", .str "floor_type"), ("equals", .str "Other")]
    [("floor_type", .str "Concrete")] Option.none Option.none Option.none "floor_type"
    (by decide) (by decide) rfl (Or.inl rfl) (by decide)
  exact h.trans (by rfl)

/-- The normalized merge result (the OverrideOut TypedDict of
src/overrides.py lines 6-11): Python sets are modelled as finite sets of
strings, defaults keeps dict insertion order, insert_after is a list of
raw directive values. -/
structure OverrideOut where
  required : Finset String
  defaults : PyDict
  hide_fields : Finset String
  insert_after : List PyVal

/-- Embedding of _empty from src/overrides.py lines 19-25. -/
def emptyOverrideOut : OverrideOut := ⟨∅, [], ∅, []⟩

/-- Embedding of _normalize_scope_name from src/overrides.py lines 14-16:
(s or "").strip() equals strip for every string since "".strip() is "". -/
def normalizeScopeName (s : String) : String := pstrip s

/-- The set of stringified elements of a list, modelling
set(str(x) for x in xs) built by the update calls in merge_overrides. -/
def strSetOfList (xs : List PyVal) : Finset String := (xs.map pyStr).toFinset

/-- The shallow validation of insert_after items in merge_overrides (src/
overrides.py lines 73-76): keep only dicts having both an after key and a
field key. -/
def insertItemKept (it : PyVal) : Bool :=
  match it with
  | .dict ies => hasKey ies "after" && hasKey ies "field"
  | _ => false

/-- One iteration of the merge loop of merge_overrides (src/overrides.py
lines 49-76) on the rule bound to one scope key: a falsy rule is skipped;
a dict rule contributes its four buckets (required and hide_fields as set
unions of stringified list entries, defaults as a dict update, insert_after
as concatenation of the shallowly validated items); a truthy non-dict rule
gives none (CPython raises AttributeError at ov.get). -/
def mergeRequired (out : OverrideOut) (es : PyDict) : OverrideOut :=
  match dGet es "required" with
  | some (.list xs) => { out with required := out.required ∪ strSetOfList xs }
  | _ => out

/-- The defaults block of the merge loop (lines 61-63): a dict value is
merged with overwrite. -/
def mergeDefaults (out : OverrideOut) (es : PyDict) : OverrideOut :=
  match dGet es "defaults" with
  | some (.dict ds) => { out with defaults := pyDictUpdate out.defaults ds }
  | _ => out

/-- The hide_fields block of the merge loop (lines 66-68). -/
def mergeHide (out : OverrideOut) (es : PyDict) : OverrideOut :=
  match dGet es "hide_fields" with
  | some (.list xs) => { out with hide_fields := out.hide_fields ∪ strSetOfList xs }
  | _ => out

/-- The insert_after block of the merge loop (lines 71-76): concatenate
the shallowly validated items. -/
def mergeInserts (out : OverrideOut) (es : PyDict) : OverrideOut :=
  match dGet es "insert_after" with
  | some (.list items) =>
      { out with insert_after := out.insert_after ++ items.filter insertItemKept }
  | _ => out

def mergeScope (out : OverrideOut) (ov : PyVal) : Option OverrideOut :=
  if pyTruthy ov = false then some out
  else
    match ov with
    | .dict es => some (mergeInserts (mergeHide (mergeDefaults (mergeRequired out es) es) es) es)
    | _ => Option.none

/-- The scope keys of merge_overrides (src/overrides.py lines 40-45), in
ascending precedence: wildcard, category, make, and the pipe-joined
make/model key. -/
def scopeKeyList (category make model : String) : List String :=
  ["*", "category:" ++ category, "make:" ++ make, "model:" ++ make ++ "|" ++ model]

/-- The overrides map read by merge_overrides (src/overrides.py line 39):
qdef.get("overrides") or empty; none when the value is truthy but not a
dict (ov_map.get would raise in CPython). -/
def overridesMapOf (qdef : PyDict) : Option PyDict :=
  let v := dGetN qdef "overrides"
  let v := if pyTruthy v then v else .dict []
  match v with
  | .dict ovm => some ovm
  | _ => Option.none

/-- Embedding of merge_overrides from src/overrides.py lines 28-78: fold
the per-scope merge over the normalized scope keys in ascending-precedence
order, starting from the empty result. -/
def merge_overrides (qdef : PyDict) (category make model : String) : Option OverrideOut :=
  match overridesMapOf qdef with
  | some ovm =>
      (scopeKeyList category make model).foldlM
        (fun out s => mergeScope out (dGetN ovm (normalizeScopeName s))) emptyOverrideOut
  | _ => Option.none

/-- Eager or on options: the left value when present, else the right. -/
def optOr (a b : Option PyVal) : Option PyVal :=
  match a with
  | some v => some v
  | Option.none => b

/-- A rule value is a dict or falsy (anything else makes the merge loop
raise in CPython). -/
def dictOrFalsy (v : PyVal) : Bool :=
  match v with
  | .dict _ => true
  | v => !pyTruthy v

/-- The rule dicts of the matching scopes in encounter order, as the
specification describes the accumulation: look up each scope key in the
overrides map, skipping scopes with no (or a falsy) rule. -/
def specMatchedScopes (ovm : PyDict) (keys : List String) : List PyDict :=
  keys.filterMap (fun k =>
    match dGetN ovm k with
    | .dict es => if es.isEmpty then Option.none else some es
    | _ => Option.none)

/-- A matched scope's required contribution (spec: the rule's required
list read as a set of names). -/
def specScopeRequired (es : PyDict) : Finset String :=
  match dGet es "required" with
  | some (.list xs) => strSetOfList xs
  | _ => ∅

/-- A matched scope's hide_fields contribution. -/
def specScopeHide (es : PyDict) : Finset String :=
  match dGet es "hide_fields" with
  | some (.list xs) => strSetOfList xs
  | _ => ∅

/-- A matched scope's defaults dict. -/
def specScopeDefaults (es : PyDict) : PyDict :=
  match dGet es "defaults" with
  | some (.dict ds) => ds
  | _ => []

/-- A matched scope's insert directives, after the shallow validation. -/
def specScopeInserts (es : PyDict) : List PyVal :=
  match dGet es "insert_after" with
  | some (.list items) => items.filter insertItemKept
  | _ => []

/-- Spec: required is the set-union of the matching scopes' lists. -/
def specRequired : List PyDict → Finset String
  | [] => ∅
  | es :: rest => specScopeRequired es ∪ specRequired rest

/-- Spec: hide_fields is the set-union of the matching scopes' lists. -/
def specHide : List PyDict → Finset String
  | [] => ∅
  | es :: rest => specScopeHide es ∪ specHide rest

/-- Spec: insert_after is the concatenation of the matching scopes'
directive lists in scope-encounter order. -/
def specInserts : List PyDict → List PyVal
  | [] => []
  | es :: rest => specScopeInserts es ++ specInserts rest

/-- Spec: a defaults lookup is answered by the latest (highest-precedence)
matching scope that defines the key. -/
def specDefaultLookup (scopes : List PyDict) (k : String) : Option PyVal :=
  scopes.reverse.findSome? (fun es => dGet (specScopeDefaults es) k)

/-- Lookup on a cons cell checks the head key first. -/
theorem dGet_cons (p : String × PyVal) (es : PyDict) (k : String) :
    dGet (p :: es) k = if p.1 == k then some p.2 else dGet es k := by
  unfold dGet
  rw [List.find?_cons]
  cases h : (p.1 == k) <;> simp [h]

/-- optOr with none on the right is the identity. -/
theorem optOr_none_right (a : Option PyVal) : optOr a Option.none = a := by
  cases a <;> rfl

/-- optOr is associative. -/
theorem optOr_assoc (a b c : Option PyVal) :
    optOr (optOr a b) c = optOr a (optOr b c) := by
  cases a <;> rfl

/-- Lookup distributes over append through optOr. -/
theorem dGet_append (d1 d2 : PyDict) (k : String) :
    dGet (d1 ++ d2) k = optOr (dGet d1 k) (dGet d2 k) := by
  induction d1 with
  | nil => simp [dGet, optOr]
  | cons p rest ih =>
      rw [List.cons_append, dGet_cons, dGet_cons]
      cases h : (p.1 == k) <;> simp [optOr, ih]

/-- Overwriting one key leaves lookups of other keys unchanged. -/
theorem dGet_mapSet_ne (d : PyDict) (k k' : String) (v : PyVal) (h : k' ≠ k) :
    dGet (d.map (fun p => if p.1 == k then (k, v) else p)) k' = dGet d k' := by
  induction d with
  | nil => rfl
  | cons p rest ih =>
      rw [List.map_cons, dGet_cons, dGet_cons]
      cases hp : (p.1 == k)
      · simp only [hp, Bool.false_eq_true, if_false]
        cases hpk : (p.1 == k')
        · simp only [hpk, Bool.false_eq_true, if_false]
          exact ih
        · simp only [hpk, if_true]
      · have hpk1 : p.1 = k := eq_of_beq hp
        have hkk : (k == k') = false := beq_eq_false_iff_ne.mpr (fun hc => h hc.symm)
        have hpk2 : (p.1 == k') = false := by rw [hpk1]; exact hkk
        simp only [hp, if_true, hkk, hpk2, Bool.false_eq_true, if_false]
        exact ih

/-- Overwriting an existing key makes its lookup yield the new value. -/
theorem dGet_mapSet_self (d : PyDict) (k : String) (v : PyVal)
    (h : hasKey d k = true) :
    dGet (d.map (fun p => if p.1 == k then (k, v) else p)) k = some v := by
  induction d with
  | nil => simp [hasKey] at h
  | cons p rest ih =>
      rw [List.map_cons]
      cases hp : (p.1 == k)
      · have hrest : hasKey rest k = true := by
          have := List.any_eq_true.mp h
          rcases this with ⟨q, hq, hqk⟩
          cases hq with
          | head => rw [hqk] at hp; exact absurd hp (by simp)
          | tail _ hmem => exact List.any_eq_true.mpr ⟨q, hmem, hqk⟩
        simp only [hp, Bool.false_eq_true, if_false]
        rw [dGet_cons]
        simp only [hp, Bool.false_eq_true, if_false]
        exact ih hrest
      · simp only [hp, if_true]
        rw [dGet_cons]
        simp

/-- Assignment then lookup of the same key yields the assigned value. -/
theorem dGet_dSet_self (d : PyDict) (k : String) (v : PyVal) :
    dGet (dSet d k v) k = some v := by
  unfold dSet
  by_cases h : hasKey d k = true
  · rw [if_pos h]
    exact dGet_mapSet_self d k v h
  · rw [if_neg h]
    rw [dGet_append, dGet_eq_none_of_not_hasKey (Bool.not_eq_true _ ▸ h)]
    simp [optOr, dGet_cons]

/-- Assignment leaves lookups of other keys unchanged. -/
theorem dGet_dSet_ne (d : PyDict) (k k' : String) (v : PyVal) (h : k' ≠ k) :
    dGet (dSet d k v) k' = dGet d k' := by
  unfold dSet
  by_cases hk : hasKey d k = true
  · rw [if_pos hk]
    exact dGet_mapSet_ne d k k' v h
  · rw [if_neg hk, dGet_append]
    have h1 : dGet [(k, v)] k' = Option.none := by
      rw [dGet_cons]
      have : (k == k') = false := by
        rw [beq_eq_false_iff_ne]
        exact fun hc => h hc.symm
      simp [this, dGet]
    rw [h1, optOr_none_right]

/-- Key membership is membership among the mapped keys. -/
theorem hasKey_iff_mem (es : PyDict) (k : String) :
    hasKey es k = true ↔ k ∈ es.map Prod.fst := by
  unfold hasKey
  rw [List.any_eq_true]
  constructor
  · rintro ⟨p, hp, hpk⟩
    exact List.mem_map.mpr ⟨p, hp, eq_of_beq hpk⟩
  · intro h
    rcases List.mem_map.mp h with ⟨p, hp, hpk⟩
    exact ⟨p, hp, by rw [hpk]; exact beq_self_eq_true k⟩

/-- Lookup after a dict update with duplicate-free keys: the update's own
entry wins, otherwise the original binding remains. -/
theorem dGet_pyDictUpdate (d ds : PyDict) (k : String)
    (hnodup : (ds.map Prod.fst).Nodup) :
    dGet (pyDictUpdate d ds) k = optOr (dGet ds k) (dGet d k) := by
  induction ds generalizing d with
  | nil => simp [pyDictUpdate, dGet, optOr]
  | cons p rest ih =>
      have hnr : (rest.map Prod.fst).Nodup := (List.nodup_cons.mp (by simpa using hnodup)).2
      have hpn : p.1 ∉ rest.map Prod.fst := (List.nodup_cons.mp (by simpa using hnodup)).1
      show dGet (pyDictUpdate (dSet d p.1 p.2) rest) k = _
      rw [ih _ hnr, dGet_cons]
      cases hp : (p.1 == k)
      · have hne : k ≠ p.1 := by
          intro hc
          rw [hc] at hp
          simp at hp
        rw [dGet_dSet_ne _ _ _ _ hne]
        simp [hp]
      · have hk : p.1 = k := eq_of_beq hp
        subst hk
        rw [dGet_dSet_self]
        have hnone : dGet rest p.1 = Option.none := by
          apply dGet_eq_none_of_not_hasKey
          cases hh : hasKey rest p.1
          · rfl
          · exact absurd ((hasKey_iff_mem rest p.1).mp hh) hpn
        rw [hnone]
        simp [optOr]

/-- findSome? distributes over append through optOr. -/
theorem findSome?_append_opt (l1 l2 : List PyDict) (f : PyDict → Option PyVal) :
    (l1 ++ l2).findSome? f = optOr (l1.findSome? f) (l2.findSome? f) := by
  induction l1 with
  | nil => simp [optOr]
  | cons a l ih =>
      rw [List.cons_append, List.findSome?_cons, List.findSome?_cons]
      cases f a <;> simp [optOr, ih]

/-- Lookup after updating with a concatenation of duplicate-free dicts:
the latest dict defining the key wins, then earlier dicts, then the
original. -/
theorem dGet_update_join (d : PyDict) (dss : List PyDict) (k : String)
    (h : ∀ ds ∈ dss, (ds.map Prod.fst).Nodup) :
    dGet (pyDictUpdate d dss.flatten) k
      = optOr (dss.reverse.findSome? (fun ds => dGet ds k)) (dGet d k) := by
  induction dss generalizing d with
  | nil => simp [pyDictUpdate, optOr]
  | cons ds rest ih =>
      have hds := h ds (by simp)
      have hrest : ∀ x ∈ rest, (x.map Prod.fst).Nodup := fun x hx => h x (by simp [hx])
      rw [List.flatten_cons]
      show dGet (List.foldl (fun acc p => dSet acc p.1 p.2) d (ds ++ rest.flatten)) k = _
      rw [List.foldl_append]
      show dGet (pyDictUpdate (pyDictUpdate d ds) rest.flatten) k = _
      rw [ih _ hrest, dGet_pyDictUpdate _ _ _ hds]
      rw [List.reverse_cons, findSome?_append_opt]
      simp only [List.findSome?_cons, List.findSome?_nil]
      rw [optOr_assoc]
      cases dGet ds k <;> rfl

/-- A falsy rule value is skipped by the merge loop. -/
theorem mergeScope_falsy (out : OverrideOut) (ov : PyVal)
    (h : pyTruthy ov = false) : mergeScope out ov = some out := by
  unfold mergeScope
  rw [h]
  rfl

/-- Each block rewrites to its spec-side contribution. -/
theorem mergeRequired_spec (out : OverrideOut) (es : PyDict) :
    mergeRequired out es = { out with required := out.required ∪ specScopeRequired es } := by
  unfold mergeRequired specScopeRequired
  cases h : dGet es "required" with
  | none => simp
  | some v => cases v <;> simp

/-- The defaults block rewrites to a dict update with the scope defaults. -/
theorem mergeDefaults_spec (out : OverrideOut) (es : PyDict) :
    mergeDefaults out es = { out with defaults := pyDictUpdate out.defaults (specScopeDefaults es) } := by
  unfold mergeDefaults specScopeDefaults
  cases h : dGet es "defaults" with
  | none => simp [pyDictUpdate]
  | some v => cases v <;> simp [pyDictUpdate]

/-- The hide_fields block rewrites to a set union with the scope hides. -/
theorem mergeHide_spec (out : OverrideOut) (es : PyDict) :
    mergeHide out es = { out with hide_fields := out.hide_fields ∪ specScopeHide es } := by
  unfold mergeHide specScopeHide
  cases h : dGet es "hide_fields" with
  | none => simp
  | some v => cases v <;> simp

/-- The insert_after block rewrites to appending the scope directives. -/
theorem mergeInserts_spec (out : OverrideOut) (es : PyDict) :
    mergeInserts out es = { out with insert_after := out.insert_after ++ specScopeInserts es } := by
  unfold mergeInserts specScopeInserts
  cases h : dGet es "insert_after" with
  | none => simp
  | some v => cases v <;> simp

/-- A non-empty dict rule contributes exactly its four buckets. -/
theorem mergeScope_dict (out : OverrideOut) (es : PyDict) (hne : es ≠ []) :
    mergeScope out (.dict es) = some
      { required := out.required ∪ specScopeRequired es
        defaults := pyDictUpdate out.defaults (specScopeDefaults es)
        hide_fields := out.hide_fields ∪ specScopeHide es
        insert_after := out.insert_after ++ specScopeInserts es } := by
  have ht : pyTruthy (.dict es) = true := by
    cases es with
    | nil => exact absurd rfl hne
    | cons a l => simp [pyTruthy, List.isEmpty]
  unfold mergeScope
  rw [ht]
  simp only [Bool.true_eq_false, if_false]
  rw [mergeRequired_spec, mergeDefaults_spec, mergeHide_spec, mergeInserts_spec]

/-- A scope value that contributes nothing: a falsy value or an empty
rule dict (the merge loop's continue, the spec's skipped scope). -/
def scopeSkipped (v : PyVal) : Bool :=
  match v with
  | .dict es => es.isEmpty
  | _ => true

/-- A dict-or-falsy scope value that is skipped is falsy. -/
theorem falsy_of_skipped {v : PyVal} (hdf : dictOrFalsy v = true)
    (hs : scopeSkipped v = true) : pyTruthy v = false := by
  cases v with
  | dict es =>
      cases es with
      | nil => rfl
      | cons a l => simp [scopeSkipped, List.isEmpty] at hs
  | none => rfl
  | bool b => unfold dictOrFalsy at hdf; simpa using hdf
  | int n => unfold dictOrFalsy at hdf; simpa using hdf
  | str s => unfold dictOrFalsy at hdf; simpa using hdf
  | list xs => unfold dictOrFalsy at hdf; simpa using hdf

/-- A dict-or-falsy scope value that is not skipped is a non-empty dict. -/
theorem dict_of_not_skipped {v : PyVal} (hdf : dictOrFalsy v = true)
    (hs : scopeSkipped v = false) : ∃ es, v = PyVal.dict es ∧ es ≠ [] := by
  cases v with
  | dict es =>
      refine ⟨es, rfl, ?_⟩
      intro he
      subst he
      simp [scopeSkipped] at hs
  | none => simp [scopeSkipped] at hs
  | bool b => simp [scopeSkipped] at hs
  | int n => simp [scopeSkipped] at hs
  | str s => simp [scopeSkipped] at hs
  | list xs => simp [scopeSkipped] at hs

/-- A skipped scope contributes nothing to the matched-scope list. -/
theorem specMatchedScopes_cons_skip (ovm : PyDict) (k : String) (rest : List String)
    (h : scopeSkipped (dGetN ovm k) = true) :
    specMatchedScopes ovm (k :: rest) = specMatchedScopes ovm rest := by
  unfold specMatchedScopes
  rw [List.filterMap_cons]
  cases hv : dGetN ovm k with
  | dict es =>
      rw [hv] at h
      simp only [scopeSkipped] at h
      simp [h]
  | none => rfl
  | bool b => rfl
  | int n => rfl
  | str s => rfl
  | list xs => rfl

/-- A non-empty dict scope heads the matched-scope list. -/
theorem specMatchedScopes_cons_dict (ovm : PyDict) (k : String) (rest : List String)
    (es : PyDict) (hv : dGetN ovm k = .dict es) (hne : es ≠ []) :
    specMatchedScopes ovm (k :: rest) = es :: specMatchedScopes ovm rest := by
  unfold specMatchedScopes
  rw [List.filterMap_cons, hv]
  have hie : es.isEmpty = false := by
    cases es with
    | nil => exact absurd rfl hne
    | cons a l => rfl
  simp [hie]

/-- The merge fold over any key list, from any accumulator: it succeeds
when every scope value is a dict or falsy, and its four buckets are the
accumulator's extended with the spec-side contributions of the matched
scopes (defaults as one concatenated update). -/
theorem mergeFold_spec (ovm : PyDict) (keys : List String) (acc : OverrideOut)
    (hsc : ∀ k ∈ keys, dictOrFalsy (dGetN ovm k) = true) :
    ∃ out, keys.foldlM (fun o k => mergeScope o (dGetN ovm k)) acc = some out
      ∧ out.required = acc.required ∪ specRequired (specMatchedScopes ovm keys)
      ∧ out.hide_fields = acc.hide_fields ∪ specHide (specMatchedScopes ovm keys)
      ∧ out.insert_after = acc.insert_after ++ specInserts (specMatchedScopes ovm keys)
      ∧ out.defaults = pyDictUpdate acc.defaults
          ((specMatchedScopes ovm keys).map specScopeDefaults).flatten := by
  induction keys generalizing acc with
  | nil =>
      refine ⟨acc, by simp, ?_, ?_, ?_, ?_⟩ <;>
        simp [specMatchedScopes, specRequired, specHide, specInserts, pyDictUpdate]
  | cons k rest ih =>
      have hk := hsc k (by simp)
      have hrest : ∀ x ∈ rest, dictOrFalsy (dGetN ovm x) = true :=
        fun x hx => hsc x (by simp [hx])
      rw [List.foldlM_cons]
      cases hskip : scopeSkipped (dGetN ovm k) with
      | true =>
          rw [mergeScope_falsy _ _ (falsy_of_skipped hk hskip)]
          rcases ih acc hrest with ⟨out, hout, h1, h2, h3, h4⟩
          rw [specMatchedScopes_cons_skip ovm k rest hskip]
          exact ⟨out, by simpa using hout, h1, h2, h3, h4⟩
      | false =>
          rcases dict_of_not_skipped hk hskip with ⟨es, hv, hne⟩
          rw [hv, mergeScope_dict _ _ hne]
          rcases ih _ hrest with ⟨out, hout, h1, h2, h3, h4⟩
          rw [specMatchedScopes_cons_dict ovm k rest es hv hne]
          refine ⟨out, by simpa using hout, ?_, ?_, ?_, ?_⟩
          · rw [h1]
            show _ = acc.required ∪ (specScopeRequired es ∪ _)
            rw [Finset.union_assoc]
          · rw [h2]
            show _ = acc.hide_fields ∪ (specScopeHide es ∪ _)
            rw [Finset.union_assoc]
          · rw [h3]
            show _ = acc.insert_after ++ (specScopeInserts es ++ _)
            rw [List.append_assoc]
          · rw [h4]
            show pyDictUpdate (pyDictUpdate acc.defaults (specScopeDefaults es)) _ = _
            rw [List.map_cons, List.flatten_cons]
            show _ = List.foldl _ acc.defaults (specScopeDefaults es ++ _)
            rw [List.foldl_append]
            rfl

/-- Folding with normalization inside equals folding over the normalized
key list. -/
theorem foldlM_normalize (ovm : PyDict) (keys : List String) (acc : OverrideOut) :
    keys.foldlM (fun o s => mergeScope o (dGetN ovm (normalizeScopeName s))) acc
      = (keys.map normalizeScopeName).foldlM (fun o s => mergeScope o (dGetN ovm s)) acc := by
  induction keys generalizing acc with
  | nil => rfl
  | cons k rest ih =>
      rw [List.map_cons, List.foldlM_cons, List.foldlM_cons]
      cases mergeScope acc (dGetN ovm (normalizeScopeName k)) <;> simp [ih]

/-- C2: Override merge contract: for every schema whose overrides map is a
dict (or absent) with dict-or-falsy scope rules carrying duplicate-free
defaults keys, and whose scope keys are whitespace-clean (strip is the
identity on them), merge_overrides visits exactly the scope keys wildcard,
category, make and pipe-joined model in ascending-precedence order,
skipping absent scopes; required and hide_fields are set-unions of the
matching scopes' lists, a defaults lookup is answered by the
highest-precedence matching scope defining the key, and insert_after is
the concatenation of the scopes' directive lists in encounter order. -/
theorem C2_merge_overrides_contract (qdef ovm : PyDict) (category make model : String)
    (hovm : overridesMapOf qdef = some ovm)
    (hkeys : ∀ k ∈ scopeKeyList category make model, normalizeScopeName k = k)
    (hsc : ∀ k ∈ scopeKeyList category make model, dictOrFalsy (dGetN ovm k) = true)
    (hnod : ∀ es ∈ specMatchedScopes ovm (scopeKeyList category make model),
        ((specScopeDefaults es).map Prod.fst).Nodup) :
    ∃ out, merge_overrides qdef category make model = some out
      ∧ out.required = specRequired (specMatchedScopes ovm (scopeKeyList category make model))
      ∧ out.hide_fields = specHide (specMatchedScopes ovm (scopeKeyList category make model))
      ∧ out.insert_after = specInserts (specMatchedScopes ovm (scopeKeyList category make model))
      ∧ ∀ k, dGet out.defaults k
          = specDefaultLookup (specMatchedScopes ovm (scopeKeyList category make model)) k := by
  have heq : merge_overrides qdef category make model
      = (scopeKeyList category make model).foldlM
          (fun o s => mergeScope o (dGetN ovm (normalizeScopeName s))) emptyOverrideOut := by
    unfold merge_overrides
    rw [hovm]
  have hmap : (scopeKeyList category make model).map normalizeScopeName
      = scopeKeyList category make model := by
    unfold scopeKeyList at hkeys ⊢
    simp only [List.map_cons, List.map_nil]
    rw [hkeys "*" (by simp), hkeys ("category:" ++ category) (by simp),
      hkeys ("make:" ++ make) (by simp),
      hkeys ("model:" ++ make ++ "|" ++ model) (by simp)]
  rw [heq, foldlM_normalize, hmap]
  rcases mergeFold_spec ovm (scopeKeyList category make model) emptyOverrideOut hsc with
    ⟨out, hout, h1, h2, h3, h4⟩
  refine ⟨out, hout, ?_, ?_, ?_, ?_⟩
  · rw [h1]
    show ∅ ∪ _ = _
    rw [Finset.empty_union]
  · rw [h2]
    show ∅ ∪ _ = _
    rw [Finset.empty_union]
  · rw [h3]
    rfl
  · intro k
    rw [h4]
    show dGet (pyDictUpdate ([] : PyDict) _) k = _
    rw [dGet_update_join _ _ _ (by
      intro ds hds
      rcases List.mem_map.mp hds with ⟨es, hes, hmap2⟩
      rw [← hmap2]
      exact hnod es hes)]
    rw [show dGet ([] : PyDict) k = Option.none from rfl, optOr_none_right]
    unfold specDefaultLookup
    rw [← List.map_reverse, List.findSome?_map]
    rfl

/-- Example schema for the merge contract: defaults x set to 1 at the
wildcard scope and to 2 at make:Acme (the precedence example of the
specification), with a required and a hide_fields contribution. -/
def exMergeSchema : PyDict :=
  [("overrides", .dict
    [("*", .dict [("defaults", .dict [("x", .int 1)]), ("required", .list [.str "a"])]),
     ("make:Acme", .dict [("defaults", .dict [("x", .int 2)]),
       ("hide_fields", .list [.str "b"])])])]

/-- Witness for C2 at the spec's own precedence example: merging for make
Acme succeeds and the defaults entry for x is the make-scope value 2. -/
theorem C2_witness :
    (merge_overrides exMergeSchema "toys" "Acme" "M1").isSome = true
    ∧ dGet ((merge_overrides exMergeSchema "toys" "Acme" "M1").getD emptyOverrideOut).defaults "x"
        = some (.int 2) := by
  obtain ⟨out, hout, h1, h2, h3, h4⟩ := C2_merge_overrides_contract exMergeSchema
    [("*", .dict [("defaults", .dict [("x", .int 1)]), ("required", .list [.str "a"])]),
     ("make:Acme", .dict [("defaults", .dict [("x", .int 2)]),
       ("hide_fields", .list [.str "b"])])]
    "toys" "Acme" "M1" rfl (by decide) (by decide) (by decide)
  constructor
  · rw [hout]
    rfl
  · rw [hout]
    show dGet out.defaults "x" = some (.int 2)
    rw [h4 "x"]
    rfl

/-- Every directive surviving the merge passes the shallow key check. -/
theorem specInserts_all (scopes : List PyDict) :
    (specInserts scopes).all insertItemKept = true := by
  induction scopes with
  | nil => rfl
  | cons es rest ih =>
      show (specScopeInserts es ++ specInserts rest).all _ = true
      rw [List.all_append, Bool.and_eq_true]
      refine ⟨?_, ih⟩
      unfold specScopeInserts
      cases h : dGet es "insert_after" with
      | none => rfl
      | some v =>
          cases v with
          | list items =>
              rw [List.all_eq_true]
              intro x hx
              exact (List.mem_filter.mp hx).2
          | none => rfl
          | bool b => rfl
          | int n => rfl
          | str s => rfl
          | dict d => rfl

/-- Example schema with a malformed insert directive whose field payload
is a plain string rather than an object. -/
def exBadInsertSchema : PyDict :=
  [("overrides", .dict [("*", .dict [("insert_after",
    .list [.dict [("after", .str "x"), ("field", .str "oops")]])])])]

/-- C3 counterexample: the wildcard-scope insert directive whose field
payload is the non-object string oops is retained, not dropped, by
merge_overrides: it appears verbatim in the merged insert_after list. -/
theorem C3_counterexample :
    ((merge_overrides exBadInsertSchema "c" "mk" "md").getD emptyOverrideOut).insert_after
      = [.dict [("after", .str "x"), ("field", .str "oops")]] := by
  rfl

/-- C3 (amended): for every schema whose matched scope rules are dicts or
falsy, merge_overrides succeeds (malformed insert entries never make it
raise), and an insert_after entry that is not a dict or lacks the after
key or the field key never appears in the merge result; entries whose
field payload is a non-object are kept at merge time (apply_overrides
skips them later). -/
theorem C3_merge_insert_validation (qdef ovm : PyDict) (category make model : String)
    (hovm : overridesMapOf qdef = some ovm)
    (hsc : ∀ k ∈ (scopeKeyList category make model).map normalizeScopeName,
        dictOrFalsy (dGetN ovm k) = true) :
    (merge_overrides qdef category make model).isSome = true
    ∧ ((merge_overrides qdef category make model).getD emptyOverrideOut).insert_after.all
        insertItemKept = true := by
  have heq : merge_overrides qdef category make model
      = ((scopeKeyList category make model).map normalizeScopeName).foldlM
          (fun o s => mergeScope o (dGetN ovm s)) emptyOverrideOut := by
    unfold merge_overrides
    rw [hovm]
    exact foldlM_normalize ovm _ _
  obtain ⟨out, hout, h1, h2, h3, h4⟩ := mergeFold_spec ovm _ emptyOverrideOut hsc
  rw [heq, hout]
  refine ⟨rfl, ?_⟩
  show out.insert_after.all insertItemKept = true
  rw [h3]
  show (([] : List PyVal) ++ _).all _ = true
  rw [List.nil_append]
  exact specInserts_all _

/-- Witness for C3 (amended) at the malformed-directive schema: the merge
succeeds and every surviving directive carries both keys. -/
theorem C3_witness :
    ((merge_overrides exBadInsertSchema "c" "mk" "md").getD emptyOverrideOut).insert_after.all
      insertItemKept = true :=
  (C3_merge_insert_validation exBadInsertSchema
    [("*", .dict [("insert_after", .list [.dict [("after", .str "x"), ("field", .str "oops")]])])]
    "c" "mk" "md" rfl (by decide)).2

/-- A section's field list as read by apply_overrides: sec.get("fields")
or [].  A truthy non-list value would make the later per-field .get calls
raise in CPython; the theorems' well-formedness hypotheses exclude it. -/
def secFieldsOr (sec : PyDict) : List PyVal :=
  match dGetN sec "fields" with
  | .list xs => xs
  | _ => []

/-- A field's name entry, f.get("name"): None for a non-dict field (where
CPython would raise AttributeError; excluded by well-formedness). -/
def fieldName (f : PyVal) : PyVal :=
  match f with
  | .dict fes => dGetN fes "name"
  | _ => .none

/-- Embedding of _find_field_index from src/form_renderer.py lines 19-23:
the first index whose field name equals (Python ==) the target; none
models the -1 not-found answer. -/
def find_field_index : List PyVal → PyVal → Option Nat
  | [], _ => Option.none
  | f :: rest, name =>
      if pyEq (fieldName f) name then some 0
      else (find_field_index rest name).map (fun i => i + 1)

/-- Membership of a value in a Python set of strings: only a string can
equal a string element (an unhashable value would raise; excluded). -/
def nameInStrSet (v : PyVal) (s : Finset String) : Bool :=
  match v with
  | .str t => t ∈ s
  | _ => false

/-- The hide phase of apply_overrides (src/form_renderer.py lines 97-100):
when the hide set is non-empty (truthy), every section's fields entry is
reassigned to the fields whose name is not hidden. -/
def hideFields (sections : List PyDict) (hide : Finset String) : List PyDict :=
  if hide = ∅ then sections
  else sections.map (fun sec =>
    dSet sec "fields"
      (.list ((secFieldsOr sec).filter (fun f => !nameInStrSet (fieldName f) hide))))

/-- The scan of the insert phase (lines 108-115): find the first section
whose fields contain the after target, insert the new field right after
it and stop; none when no section matches. -/
def insertLoop : List PyDict → PyVal → PyVal → Option (List PyDict)
  | [], _, _ => Option.none
  | sec :: rest, a, nf =>
      match find_field_index (secFieldsOr sec) a with
      | some idx =>
          some ((dSet sec "fields"
            (.list (List.insertIdx (idx + 1) nf (secFieldsOr sec)))) :: rest)
      | Option.none => (insertLoop rest a nf).map (fun out => sec :: out)

/-- The fallback append to the last section (lines 117-118), via
setdefault: an absent fields key becomes a singleton list, a list gets the
field appended; a present non-list value would raise at .append in
CPython (modelled as unchanged, excluded by well-formedness); an empty
section list appends nowhere. -/
def appendFieldSec (sec : PyDict) (nf : PyVal) : PyDict :=
  match dGet sec "fields" with
  | some (.list xs) => dSet sec "fields" (.list (xs ++ [nf]))
  | some _ => sec
  | Option.none => dSet sec "fields" (.list [nf])

/-- The fallback applied to the last section of a non-empty list; an
empty section list appends nowhere (the guard and out_sections of line
117). -/
def appendFieldLast : List PyDict → PyVal → List PyDict
  | [], _ => []
  | [sec], nf => [appendFieldSec sec nf]
  | sec :: rest, nf => sec :: appendFieldLast rest nf

/-- One directive of the insert phase (lines 103-118): a directive with a
falsy after value or a non-dict field payload is skipped; otherwise scan
and insert, with the append-to-last fallback.  A truthy non-dict
directive would raise at .get in CPython (skipped here; merge_overrides
only emits dicts). -/
def insertOne (sections : List PyDict) (ins : PyVal) : List PyDict :=
  let a := match ins with
           | .dict ies => dGetN ies "after"
           | _ => .none
  let nf := match ins with
           | .dict ies => dGetN ies "field"
           | _ => .none
  if pyTruthy a = false then sections
  else
    match nf with
    | .dict _ =>
        (match insertLoop sections a nf with
         | some out => out
         | Option.none => appendFieldLast sections nf)
    | _ => sections

/-- The insert phase (lines 103-118): directives applied in list order. -/
def applyInserts (sections : List PyDict) (inserts : List PyVal) : List PyDict :=
  inserts.foldl insertOne sections

/-- The per-field body of the required phase (lines 121-125): a field
dict whose name is in the required set gets its required entry set to
True. -/
def requireField (req : Finset String) (f : PyVal) : PyVal :=
  match f with
  | .dict fes =>
      if nameInStrSet (dGetN fes "name") req then .dict (dSet fes "required" (.bool true))
      else f
  | _ => f

/-- The per-section body of the required phase. -/
def markRequiredSec (req : Finset String) (sec : PyDict) : PyDict :=
  match dGet sec "fields" with
  | some (.list xs) => dSet sec "fields" (.list (xs.map (requireField req)))
  | _ => sec

def markRequired (sections : List PyDict) (req : Finset String) : List PyDict :=
  if req = ∅ then sections
  else sections.map (markRequiredSec req)

/-- Embedding of apply_overrides from src/form_renderer.py lines 81-127:
deep-copy the sections (the identity on values), hide, insert, then mark
required.  The merged-overrides argument has the merge_overrides result
shape (the OverrideOut TypedDict): hide_fields and required are string
sets, insert_after a directive list. -/
def apply_overrides (sections : List PyDict) (ov : OverrideOut) : List PyDict :=
  markRequired (applyInserts (hideFields sections ov.hide_fields) ov.insert_after) ov.required

/-- No matching field yields no index. -/
theorem find_field_index_none (fields : List PyVal) (a : PyVal)
    (h : ∀ g ∈ fields, pyEq (fieldName g) a = false) :
    find_field_index fields a = Option.none := by
  induction fields with
  | nil => rfl
  | cons f rest ih =>
      unfold find_field_index
      rw [if_neg (by rw [h f (by simp)]; exact Bool.false_ne_true)]
      rw [ih (fun g hg => h g (by simp [hg]))]
      rfl

/-- The index found is the first match: no match before, a match there. -/
theorem find_field_index_first (fs1 : List PyVal) (f : PyVal) (fs2 : List PyVal) (a : PyVal)
    (h1 : ∀ g ∈ fs1, pyEq (fieldName g) a = false)
    (h2 : pyEq (fieldName f) a = true) :
    find_field_index (fs1 ++ f :: fs2) a = some fs1.length := by
  induction fs1 with
  | nil =>
      rw [List.nil_append]
      unfold find_field_index
      rw [if_pos h2]
      rfl
  | cons g rest ih =>
      rw [List.cons_append]
      unfold find_field_index
      rw [if_neg (by rw [h1 g (by simp)]; exact Bool.false_ne_true)]
      rw [ih (fun x hx => h1 x (by simp [hx]))]
      rfl

/-- Inserting at the successor of the split point lands right after the
matched field. -/
theorem insertIdx_after_first (fs1 : List PyVal) (f : PyVal) (fs2 : List PyVal) (nf : PyVal) :
    List.insertIdx (fs1.length + 1) nf (fs1 ++ f :: fs2) = fs1 ++ f :: nf :: fs2 := by
  induction fs1 with
  | nil =>
      rw [List.nil_append, List.nil_append]
      rw [show ([] : List PyVal).length + 1 = 0 + 1 from rfl]
      rw [List.insertIdx_succ_cons, List.insertIdx_zero]
  | cons g rest ih =>
      rw [List.cons_append, List.length_cons]
      rw [show rest.length + 1 + 1 = (rest.length + 1) + 1 from rfl]
      rw [List.insertIdx_succ_cons, ih, List.cons_append]

/-- Sections with no matching field are passed over by the scan. -/
theorem insertLoop_skip (pre rest : List PyDict) (a nf : PyVal)
    (h : ∀ s ∈ pre, ∀ g ∈ secFieldsOr s, pyEq (fieldName g) a = false) :
    insertLoop (pre ++ rest) a nf = (insertLoop rest a nf).map (fun out => pre ++ out) := by
  induction pre with
  | nil =>
      rw [List.nil_append]
      cases insertLoop rest a nf <;> rfl
  | cons s pre2 ih =>
      rw [List.cons_append]
      have hs := find_field_index_none _ a (h s (by simp))
      show (match find_field_index (secFieldsOr s) a with
            | some idx =>
                some ((dSet s "fields"
                  (.list (List.insertIdx (idx + 1) nf (secFieldsOr s)))) :: (pre2 ++ rest))
            | Option.none => (insertLoop (pre2 ++ rest) a nf).map (fun out => s :: out))
          = (insertLoop rest a nf).map (fun out => (s :: pre2) ++ out)
      rw [hs]
      show (insertLoop (pre2 ++ rest) a nf).map (fun out => s :: out) = _
      rw [ih (fun x hx => h x (by simp [hx]))]
      cases insertLoop rest a nf <;> rfl

/-- The fallback rewrites the last section only. -/
theorem appendFieldLast_append (init : List PyDict) (l : PyDict) (nf : PyVal) :
    appendFieldLast (init ++ [l]) nf = init ++ [appendFieldSec l nf] := by
  induction init with
  | nil => rfl
  | cons s init2 ih =>
      rw [List.cons_append]
      cases hsplit : init2 ++ [l] with
      | nil => exact absurd hsplit (by simp)
      | cons h2 t2 =>
          show s :: appendFieldLast (h2 :: t2) nf = _
          rw [← hsplit, ih, List.cons_append]

/-- A directive with a truthy after value and a dict field payload always
reaches the scan-with-fallback. -/
theorem insertOne_valid (ss : List PyDict) (ies nfes : PyDict) (av : PyVal)
    (ha : dGetN ies "after" = av) (hat : pyTruthy av = true)
    (hf : dGetN ies "field" = .dict nfes) :
    insertOne ss (.dict ies)
      = (match insertLoop ss av (.dict nfes) with
         | some out => out
         | Option.none => appendFieldLast ss (.dict nfes)) := by
  subst ha
  unfold insertOne
  simp only [hf, hat, Bool.true_eq_false, if_false]

/-- C4 (amended): insert placement and fallback: directives are applied in
list order; each valid directive inserts its field immediately after the
first field (scanning sections top-to-bottom, field-by-field) whose name
equals the after target, leaving all further sections unmodified; when no
field anywhere matches and the section list is non-empty, the field is
appended to the last section's field list (with an empty section list the
directive is dropped). -/
theorem C4_insert_placement_and_fallback :
    (∀ (ss : List PyDict) (ins : PyVal) (rest : List PyVal),
        applyInserts ss (ins :: rest) = applyInserts (insertOne ss ins) rest)
    ∧ (∀ (sections : List PyDict) (ov : OverrideOut),
        apply_overrides sections ov
          = markRequired (applyInserts (hideFields sections ov.hide_fields) ov.insert_after)
              ov.required)
    ∧ (∀ (pre post : List PyDict) (sec : PyDict) (fs1 fs2 : List PyVal) (f : PyVal)
         (ies nfes : PyDict) (av : PyVal),
        dGetN ies "after" = av → pyTruthy av = true → dGetN ies "field" = .dict nfes →
        (∀ s ∈ pre, ∀ g ∈ secFieldsOr s, pyEq (fieldName g) av = false) →
        dGet sec "fields" = some (.list (fs1 ++ f :: fs2)) →
        (∀ g ∈ fs1, pyEq (fieldName g) av = false) →
        pyEq (fieldName f) av = true →
        insertOne (pre ++ sec :: post) (.dict ies)
          = pre ++ (dSet sec "fields" (.list (fs1 ++ f :: .dict nfes :: fs2))) :: post)
    ∧ (∀ (init : List PyDict) (l : PyDict) (ies nfes : PyDict) (av : PyVal),
        dGetN ies "after" = av → pyTruthy av = true → dGetN ies "field" = .dict nfes →
        (∀ s ∈ init ++ [l], ∀ g ∈ secFieldsOr s, pyEq (fieldName g) av = false) →
        (dGet l "fields" = Option.none ∨ ∃ xs, dGet l "fields" = some (.list xs)) →
        insertOne (init ++ [l]) (.dict ies)
          = init ++ [dSet l "fields" (.list (secFieldsOr l ++ [.dict nfes]))]) := by
  refine ⟨?_, ?_, ?_, ?_⟩
  · intro ss ins rest
    rfl
  · intro sections ov
    rfl
  · intro pre post sec fs1 fs2 f ies nfes av ha hat hf hpre hsec hfs1 hmatch
    rw [insertOne_valid _ _ _ _ ha hat hf]
    rw [insertLoop_skip pre (sec :: post) av (.dict nfes) hpre]
    have hsf : secFieldsOr sec = fs1 ++ f :: fs2 := by
      unfold secFieldsOr dGetN
      rw [hsec]
      rfl
    have hfind : find_field_index (secFieldsOr sec) av = some fs1.length := by
      rw [hsf]
      exact find_field_index_first _ _ _ _ hfs1 hmatch
    have hloop : insertLoop (sec :: post) av (.dict nfes)
        = some ((dSet sec "fields" (.list (fs1 ++ f :: .dict nfes :: fs2))) :: post) := by
      show (match find_field_index (secFieldsOr sec) av with
            | some idx =>
                some ((dSet sec "fields"
                  (.list (List.insertIdx (idx + 1) (.dict nfes) (secFieldsOr sec)))) :: post)
            | Option.none => (insertLoop post av (.dict nfes)).map (fun out => sec :: out))
          = _
      rw [hfind, hsf]
      show some ((dSet sec "fields"
        (.list (List.insertIdx (fs1.length + 1) (.dict nfes) (fs1 ++ f :: fs2)))) :: post) = _
      rw [insertIdx_after_first]
    rw [hloop]
    rfl
  · intro init l ies nfes av ha hat hf hnone hwfl
    rw [insertOne_valid _ _ _ _ ha hat hf]
    have hskip := insertLoop_skip (init ++ [l]) [] av (.dict nfes) hnone
    rw [List.append_nil] at hskip
    rw [hskip]
    show appendFieldLast (init ++ [l]) (.dict nfes) = _
    rw [appendFieldLast_append]
    have happ : appendFieldSec l (.dict nfes)
        = dSet l "fields" (.list (secFieldsOr l ++ [.dict nfes])) := by
      rcases hwfl with hn | ⟨xs, hxs⟩
      · unfold appendFieldSec secFieldsOr dGetN
        rw [hn]
        rfl
      · unfold appendFieldSec secFieldsOr dGetN
        rw [hxs]
        rfl
    rw [happ]

/-- C4 counterexample: applying a well-formed insert directive to an empty
composed section list silently drops the new field: the output is empty,
so the field was neither inserted nor appended anywhere. -/
theorem C4_counterexample :
    apply_overrides []
      ⟨∅, [], ∅, [.dict [("after", .str "x"), ("field", .dict [("name", .str "extra")])]]⟩
      = [] := by
  rfl

/-- Example sections for the insert-placement witness. -/
def exSec0 : PyDict := [("title", .str "A"), ("fields", .list [.dict [("name", .str "p")]])]

/-- Second example section, holding the insertion target. -/
def exSec1 : PyDict :=
  [("fields", .list [.dict [("name", .str "q")], .dict [("name", .str "t")]])]

/-- Witness for C4 at a concrete two-section list: the new field lands
immediately after the first field named t, in the second section. -/
theorem C4_witness :
    insertOne [exSec0, exSec1]
        (.dict [("after", .str "t"), ("field", .dict [("name", .str "new")])])
      = [exSec0, dSet exSec1 "fields"
          (.list [.dict [("name", .str "q")], .dict [("name", .str "t")],
            .dict [("name", .str "new")]])] := by
  have h := C4_insert_placement_and_fallback.2.2.1 [exSec0] [] exSec1
    [.dict [("name", .str "q")]] [] (.dict [("name", .str "t")])
    [("after", .str "t"), ("field", .dict [("name", .str "new")])]
    [("name", .str "new")] (.str "t") rfl (by decide) rfl (by decide) rfl (by decide) (by decide)
  exact h

/-- A section's fields contain a field with the given name. -/
def secHasName (sec : PyDict) (n : String) : Bool :=
  (secFieldsOr sec).any (fun f => pyEq (fieldName f) (.str n))

/-- Some section of the list has a field with the given name. -/
def fieldNamePresent (sections : List PyDict) (n : String) : Bool :=
  sections.any (fun sec => secHasName sec n)

/-- An in-bounds insertIdx contains the inserted element. -/
theorem mem_insertIdx_self (k : Nat) (a : PyVal) (l : List PyVal) (h : k ≤ l.length) :
    a ∈ List.insertIdx k a l := by
  induction k generalizing l with
  | zero => rw [List.insertIdx_zero]; exact List.mem_cons_self a l
  | succ k2 ih =>
      cases l with
      | nil => exact absurd h (by simp)
      | cons x xs =>
          rw [List.insertIdx_succ_cons]
          exact List.mem_cons_of_mem x (ih xs (Nat.le_of_succ_le_succ h))

/-- insertIdx keeps every original element. -/
theorem mem_insertIdx_of_mem (k : Nat) (a x : PyVal) (l : List PyVal) (h : x ∈ l) :
    x ∈ List.insertIdx k a l := by
  induction k generalizing l with
  | zero => rw [List.insertIdx_zero]; exact List.mem_cons_of_mem a h
  | succ k2 ih =>
      cases l with
      | nil => exact absurd h (by simp)
      | cons y ys =>
          rw [List.insertIdx_succ_cons]
          cases List.mem_cons.mp h with
          | inl he => rw [he]; exact List.mem_cons_self y _
          | inr ht => exact List.mem_cons_of_mem y (ih ys ht)

/-- A found field index is within bounds. -/
theorem find_field_index_lt (fields : List PyVal) (a : PyVal) (idx : Nat)
    (h : find_field_index fields a = some idx) : idx < fields.length := by
  induction fields generalizing idx with
  | nil => exact absurd h (by unfold find_field_index; simp)
  | cons f rest ih =>
      unfold find_field_index at h
      by_cases hp : pyEq (fieldName f) a = true
      · rw [if_pos hp] at h
        injection h with h2
        rw [← h2]
        simp
      · rw [if_neg hp] at h
        cases hr : find_field_index rest a with
        | none => rw [hr] at h; exact absurd h (by simp)
        | some j =>
            rw [hr] at h
            injection h with h2
            rw [← h2]
            have := ih j hr
            simp
            omega

/-- The inserted field is named in the scan's output. -/
theorem insertLoop_presence (ss : List PyDict) (av nf : PyVal) (n : String)
    (hn : pyEq (fieldName nf) (.str n) = true) :
    ∀ out, insertLoop ss av nf = some out → fieldNamePresent out n = true := by
  induction ss with
  | nil => intro out h; exact absurd h (by unfold insertLoop; simp)
  | cons sec rest ih =>
      intro out h
      unfold insertLoop at h
      cases hfind : find_field_index (secFieldsOr sec) av with
      | some idx =>
          rw [hfind] at h
          injection h with h2
          rw [← h2]
          unfold fieldNamePresent
          rw [List.any_cons, Bool.or_eq_true]
          left
          unfold secHasName secFieldsOr dGetN
          rw [dGet_dSet_self]
          rw [List.any_eq_true]
          refine ⟨nf, ?_, hn⟩
          exact mem_insertIdx_self _ _ _ (Nat.succ_le_of_lt (find_field_index_lt _ _ _ hfind))
      | none =>
          rw [hfind] at h
          cases hr : insertLoop rest av nf with
          | none => rw [hr] at h; exact absurd h (by simp)
          | some out2 =>
              rw [hr] at h
              injection h with h2
              rw [← h2]
              unfold fieldNamePresent
              rw [List.any_cons, Bool.or_eq_true]
              right
              exact ih out2 hr

/-- A well-formed section: its fields entry is absent or a list (the
shapes on which apply_overrides runs without raising). -/
def secWF (sec : PyDict) : Prop :=
  dGet sec "fields" = Option.none ∨ ∃ xs, dGet sec "fields" = some (.list xs)

/-- Appending to a well-formed section makes the new field named there. -/
theorem appendFieldSec_has (l : PyDict) (nf : PyVal) (n : String)
    (hn : pyEq (fieldName nf) (.str n) = true) (hwf : secWF l) :
    secHasName (appendFieldSec l nf) n = true := by
  rcases hwf with h | ⟨xs, h⟩
  · unfold appendFieldSec
    rw [h]
    unfold secHasName secFieldsOr dGetN
    rw [dGet_dSet_self]
    rw [List.any_eq_true]
    exact ⟨nf, by simp, hn⟩
  · unfold appendFieldSec
    rw [h]
    unfold secHasName secFieldsOr dGetN
    rw [dGet_dSet_self]
    rw [List.any_eq_true]
    exact ⟨nf, by simp, hn⟩

/-- Every directive either leaves the sections unchanged or runs the
scan-with-fallback for some truthy after target and dict field payload. -/
theorem insertOne_cases (ss : List PyDict) (ins : PyVal) :
    insertOne ss ins = ss
    ∨ ∃ av nfes, pyTruthy av = true
        ∧ insertOne ss ins = (match insertLoop ss av (.dict nfes) with
            | some out => out
            | Option.none => appendFieldLast ss (.dict nfes)) := by
  cases ins with
  | dict ies =>
      by_cases hat : pyTruthy (dGetN ies "after") = true
      · cases hnf : dGetN ies "field" with
        | dict nfes => exact Or.inr ⟨_, nfes, hat, insertOne_valid ss ies nfes _ rfl hat hnf⟩
        | none => left; unfold insertOne; simp [hat, hnf]
        | bool b => left; unfold insertOne; simp [hat, hnf]
        | int m => left; unfold insertOne; simp [hat, hnf]
        | str s => left; unfold insertOne; simp [hat, hnf]
        | list xs => left; unfold insertOne; simp [hat, hnf]
      · left
        unfold insertOne
        rw [Bool.not_eq_true] at hat
        simp [hat]
  | none => left; rfl
  | bool b => left; unfold insertOne; simp [pyTruthy]
  | int m => left; unfold insertOne; simp [pyTruthy]
  | str s => left; unfold insertOne; simp [pyTruthy]
  | list xs => left; unfold insertOne; simp [pyTruthy]

/-- A valid directive applied to a non-empty well-formed section list
leaves its field present (inserted at the match or appended as the
fallback). -/
theorem insertOne_adds (ss : List PyDict) (ies nfes : PyDict) (av : PyVal) (n : String)
    (ha : dGetN ies "after" = av) (hat : pyTruthy av = true)
    (hf : dGetN ies "field" = .dict nfes) (hn : dGetN nfes "name" = .str n)
    (hne : ss ≠ []) (hwf : ∀ sec ∈ ss, secWF sec) :
    fieldNamePresent (insertOne ss (.dict ies)) n = true := by
  have hpn : pyEq (fieldName (.dict nfes)) (.str n) = true := by
    show pyEq (dGetN nfes "name") (.str n) = true
    rw [hn]
    show (n == n) = true
    exact beq_self_eq_true n
  rw [insertOne_valid _ _ _ _ ha hat hf]
  cases hloop : insertLoop ss av (.dict nfes) with
  | some out => exact insertLoop_presence ss av _ n hpn out hloop
  | none =>
      rcases List.eq_nil_or_concat ss with hnil | ⟨init, l, rfl⟩
      · exact absurd hnil hne
      · show fieldNamePresent (appendFieldLast (init.concat l) (.dict nfes)) n = true
        rw [List.concat_eq_append] at hwf ⊢
        rw [appendFieldLast_append]
        unfold fieldNamePresent
        rw [List.any_append, Bool.or_eq_true]
        right
        have hwl : secWF l := hwf l (by simp)
        simp [appendFieldSec_has l _ n hpn hwl]

/-- The scan never removes a named field. -/
theorem insertLoop_preserves_presence (ss : List PyDict) (av nf : PyVal) (n : String) :
    ∀ out, insertLoop ss av nf = some out →
      fieldNamePresent ss n = true → fieldNamePresent out n = true := by
  induction ss with
  | nil => intro out h; exact absurd h (by unfold insertLoop; simp)
  | cons sec rest ih =>
      intro out h hp
      unfold insertLoop at h
      unfold fieldNamePresent at hp
      rw [List.any_cons, Bool.or_eq_true] at hp
      cases hfind : find_field_index (secFieldsOr sec) av with
      | some idx =>
          rw [hfind] at h
          injection h with h2
          rw [← h2]
          unfold fieldNamePresent
          rw [List.any_cons, Bool.or_eq_true]
          cases hp with
          | inl hsec =>
              left
              unfold secHasName at hsec ⊢
              unfold secFieldsOr dGetN
              rw [dGet_dSet_self]
              rw [List.any_eq_true] at hsec ⊢
              rcases hsec with ⟨g, hg, hgn⟩
              exact ⟨g, mem_insertIdx_of_mem _ _ _ _ hg, hgn⟩
          | inr hrest => right; exact hrest
      | none =>
          rw [hfind] at h
          cases hr : insertLoop rest av nf with
          | none => rw [hr] at h; exact absurd h (by simp)
          | some out2 =>
              rw [hr] at h
              injection h with h2
              rw [← h2]
              unfold fieldNamePresent
              rw [List.any_cons, Bool.or_eq_true]
              cases hp with
              | inl hsec => left; exact hsec
              | inr hrest => right; exact ih out2 hr hrest

/-- The fallback never removes a named field. -/
theorem appendFieldLast_preserves_presence (ss : List PyDict) (nf : PyVal) (n : String)
    (hp : fieldNamePresent ss n = true) :
    fieldNamePresent (appendFieldLast ss nf) n = true := by
  induction ss with
  | nil => exact hp
  | cons sec rest ih =>
      unfold fieldNamePresent at hp
      rw [List.any_cons, Bool.or_eq_true] at hp
      cases rest with
      | nil =>
          show fieldNamePresent [appendFieldSec sec nf] n = true
          unfold fieldNamePresent
          rw [List.any_cons, Bool.or_eq_true]
          left
          have hsec : secHasName sec n = true := by
            cases hp with
            | inl h => exact h
            | inr h => exact absurd h (by simp)
          unfold appendFieldSec
          cases hg : dGet sec "fields" with
          | none =>
              unfold secHasName secFieldsOr dGetN at hsec
              rw [hg] at hsec
              exact absurd hsec (by simp)
          | some v =>
              cases v with
              | list xs =>
                  unfold secHasName secFieldsOr dGetN at hsec ⊢
                  rw [hg] at hsec
                  rw [dGet_dSet_self]
                  rw [List.any_eq_true] at hsec ⊢
                  rcases hsec with ⟨g, hgm, hgn⟩
                  exact ⟨g, by simp [List.mem_append]; left; exact hgm, hgn⟩
              | none => exact hsec
              | bool b => exact hsec
              | int m => exact hsec
              | str s => exact hsec
              | dict d => exact hsec
      | cons r rs =>
          show fieldNamePresent (sec :: appendFieldLast (r :: rs) nf) n = true
          unfold fieldNamePresent
          rw [List.any_cons, Bool.or_eq_true]
          cases hp with
          | inl h => left; exact h
          | inr h => right; exact ih h

/-- One directive of the insert phase never removes a named field. -/
theorem insertOne_preserves_presence (ss : List PyDict) (ins : PyVal) (n : String)
    (hp : fieldNamePresent ss n = true) :
    fieldNamePresent (insertOne ss ins) n = true := by
  rcases insertOne_cases ss ins with h | ⟨av, nfes, hat, h⟩
  · rw [h]; exact hp
  · rw [h]
    cases hloop : insertLoop ss av (.dict nfes) with
    | some out => exact insertLoop_preserves_presence ss av _ n out hloop hp
    | none => exact appendFieldLast_preserves_presence ss _ n hp

/-- The whole insert phase never removes a named field. -/
theorem applyInserts_preserves_presence (inserts : List PyVal) (ss : List PyDict) (n : String)
    (hp : fieldNamePresent ss n = true) :
    fieldNamePresent (applyInserts ss inserts) n = true := by
  induction inserts generalizing ss with
  | nil => exact hp
  | cons ins rest ih =>
      show fieldNamePresent (applyInserts (insertOne ss ins) rest) n = true
      exact ih _ (insertOne_preserves_presence ss ins n hp)

/-- The scan preserves section well-formedness. -/
theorem insertLoop_wf (ss : List PyDict) (av nf : PyVal) :
    ∀ out, insertLoop ss av nf = some out → (∀ sec ∈ ss, secWF sec) →
      ∀ sec ∈ out, secWF sec := by
  induction ss with
  | nil => intro out h; exact absurd h (by unfold insertLoop; simp)
  | cons sec rest ih =>
      intro out h hwf s hs
      unfold insertLoop at h
      cases hfind : find_field_index (secFieldsOr sec) av with
      | some idx =>
          rw [hfind] at h
          injection h with h2
          rw [← h2] at hs
          cases List.mem_cons.mp hs with
          | inl he => rw [he]; exact Or.inr ⟨_, dGet_dSet_self _ _ _⟩
          | inr ht => exact hwf s (List.mem_cons_of_mem _ ht)
      | none =>
          rw [hfind] at h
          cases hr : insertLoop rest av nf with
          | none => rw [hr] at h; exact absurd h (by simp)
          | some out2 =>
              rw [hr] at h
              injection h with h2
              rw [← h2] at hs
              cases List.mem_cons.mp hs with
              | inl he => rw [he]; exact hwf sec (by simp)
              | inr ht =>
                  exact ih out2 hr (fun x hx => hwf x (List.mem_cons_of_mem _ hx)) s ht

/-- The scan's success keeps the section list non-empty. -/
theorem insertLoop_some_ne_nil (ss : List PyDict) (av nf : PyVal) :
    ∀ out, insertLoop ss av nf = some out → ss ≠ [] → out ≠ [] := by
  induction ss with
  | nil => intro out h; exact absurd h (by unfold insertLoop; simp)
  | cons sec rest ih =>
      intro out h _
      unfold insertLoop at h
      cases hfind : find_field_index (secFieldsOr sec) av with
      | some idx =>
          rw [hfind] at h
          injection h with h2
          rw [← h2]
          simp
      | none =>
          rw [hfind] at h
          cases hr : insertLoop rest av nf with
          | none => rw [hr] at h; exact absurd h (by simp)
          | some out2 =>
              rw [hr] at h
              injection h with h2
              rw [← h2]
              simp

/-- The fallback preserves well-formedness. -/
theorem appendFieldLast_wf (ss : List PyDict) (nf : PyVal)
    (hwf : ∀ sec ∈ ss, secWF sec) :
    ∀ sec ∈ appendFieldLast ss nf, secWF sec := by
  induction ss with
  | nil => intro s hs; exact absurd hs (by simp [appendFieldLast])
  | cons sec rest ih =>
      intro s hs
      cases rest with
      | nil =>
          have hs2 : s = appendFieldSec sec nf := by
            have : appendFieldLast [sec] nf = [appendFieldSec sec nf] := rfl
            rw [this] at hs
            simpa using hs
          rw [hs2]
          unfold appendFieldSec
          rcases hwf sec (by simp) with h | ⟨xs, h⟩
          · rw [h]; exact Or.inr ⟨_, dGet_dSet_self _ _ _⟩
          · rw [h]; exact Or.inr ⟨_, dGet_dSet_self _ _ _⟩
      | cons r rs =>
          have : appendFieldLast (sec :: r :: rs) nf = sec :: appendFieldLast (r :: rs) nf := rfl
          rw [this] at hs
          cases List.mem_cons.mp hs with
          | inl he => rw [he]; exact hwf sec (by simp)
          | inr ht => exact ih (fun x hx => hwf x (List.mem_cons_of_mem _ hx)) s ht

/-- The fallback keeps a non-empty list non-empty. -/
theorem appendFieldLast_ne_nil (ss : List PyDict) (nf : PyVal) (hne : ss ≠ []) :
    appendFieldLast ss nf ≠ [] := by
  cases ss with
  | nil => exact absurd rfl hne
  | cons sec rest =>
      cases rest with
      | nil => simp [appendFieldLast]
      | cons r rs => simp [appendFieldLast]

/-- One directive preserves well-formedness and non-emptiness. -/
theorem insertOne_wf_ne (ss : List PyDict) (ins : PyVal)
    (hwf : ∀ sec ∈ ss, secWF sec) (hne : ss ≠ []) :
    (∀ sec ∈ insertOne ss ins, secWF sec) ∧ insertOne ss ins ≠ [] := by
  rcases insertOne_cases ss ins with h | ⟨av, nfes, hat, h⟩
  · rw [h]; exact ⟨hwf, hne⟩
  · rw [h]
    cases hloop : insertLoop ss av (.dict nfes) with
    | some out =>
        exact ⟨insertLoop_wf ss av _ out hloop hwf, insertLoop_some_ne_nil ss av _ out hloop hne⟩
    | none => exact ⟨appendFieldLast_wf ss _ hwf, appendFieldLast_ne_nil ss _ hne⟩

/-- The whole insert phase preserves well-formedness and non-emptiness. -/
theorem applyInserts_wf_ne (inserts : List PyVal) (ss : List PyDict)
    (hwf : ∀ sec ∈ ss, secWF sec) (hne : ss ≠ []) :
    (∀ sec ∈ applyInserts ss inserts, secWF sec) ∧ applyInserts ss inserts ≠ [] := by
  induction inserts generalizing ss with
  | nil => exact ⟨hwf, hne⟩
  | cons ins rest ih =>
      have h1 := insertOne_wf_ne ss ins hwf hne
      exact ih (insertOne ss ins) h1.1 h1.2

/-- With a non-empty hide set the hide phase writes a list of fields into
every section (so every output section is well-formed) and keeps the
length. -/
theorem hideFields_wf_ne (sections : List PyDict) (hide : Finset String)
    (hne : hide ≠ ∅) (hs : sections ≠ []) :
    (∀ sec ∈ hideFields sections hide, secWF sec) ∧ hideFields sections hide ≠ [] := by
  unfold hideFields
  rw [if_neg hne]
  constructor
  · intro sec hsec
    rcases List.mem_map.mp hsec with ⟨s0, _, he⟩
    rw [← he]
    exact Or.inr ⟨_, dGet_dSet_self _ _ _⟩
  · intro h
    exact hs (List.map_eq_nil_iff.mp h)

/-- The required phase never removes a named field. -/
theorem markRequired_preserves_presence (ss : List PyDict) (req : Finset String) (n : String)
    (hp : fieldNamePresent ss n = true) :
    fieldNamePresent (markRequired ss req) n = true := by
  unfold markRequired
  by_cases hr : req = ∅
  · rw [if_pos hr]; exact hp
  · rw [if_neg hr]
    unfold fieldNamePresent at hp ⊢
    rw [List.any_eq_true] at hp
    rcases hp with ⟨sec, hsec, hhas⟩
    rw [List.any_eq_true]
    refine ⟨_, List.mem_map.mpr ⟨sec, hsec, rfl⟩, ?_⟩
    unfold markRequiredSec
    cases hg : dGet sec "fields" with
    | none =>
        unfold secHasName secFieldsOr dGetN at hhas
        rw [hg] at hhas
        exact absurd hhas (by simp)
    | some v =>
        cases v with
        | list xs =>
            show secHasName (dSet sec "fields" (.list (xs.map (requireField req)))) n = true
            unfold secHasName secFieldsOr dGetN at hhas ⊢
            rw [hg] at hhas
            rw [dGet_dSet_self]
            rw [List.any_eq_true] at hhas ⊢
            rcases hhas with ⟨f, hf, hfn⟩
            refine ⟨_, List.mem_map.mpr ⟨f, hf, rfl⟩, ?_⟩
            cases f with
            | dict fes =>
                show pyEq (fieldName (if nameInStrSet (dGetN fes "name") req = true
                    then PyVal.dict (dSet fes "required" (.bool true))
                    else PyVal.dict fes)) (.str n) = true
                by_cases hreq : nameInStrSet (dGetN fes "name") req = true
                · rw [if_pos hreq]
                  show pyEq (fieldName (.dict (dSet fes "required" (.bool true)))) _ = true
                  have hnm : fieldName (.dict (dSet fes "required" (.bool true)))
                      = fieldName (.dict fes) := by
                    show dGetN (dSet fes "required" (.bool true)) "name" = dGetN fes "name"
                    unfold dGetN
                    rw [dGet_dSet_ne _ _ _ _ (by decide)]
                  rw [hnm]
                  exact hfn
                · rw [if_neg hreq]
                  exact hfn
            | none => exact hfn
            | bool b => exact hfn
            | int m => exact hfn
            | str s => exact hfn
            | list l2 => exact hfn
        | none => show secHasName sec n = true; exact hhas
        | bool b => show secHasName sec n = true; exact hhas
        | int m => show secHasName sec n = true; exact hhas
        | str s => show secHasName sec n = true; exact hhas
        | dict d => show secHasName sec n = true; exact hhas

/-- C10: hiding is applied before insertion in apply_overrides, so a field
added by one of the merged overrides' own insert_after directives is never
removed by hide_fields: even when the hide set contains the inserted
field's name, a field of that name is present in the output sections (for
any non-empty composed section list). -/
theorem C10_hidden_inserted_field_survives (sections : List PyDict) (ov : OverrideOut)
    (ies nfes : PyDict) (av : PyVal) (n : String)
    (hmem : PyVal.dict ies ∈ ov.insert_after)
    (ha : dGetN ies "after" = av) (hat : pyTruthy av = true)
    (hf : dGetN ies "field" = .dict nfes)
    (hn : dGetN nfes "name" = .str n)
    (hhide : n ∈ ov.hide_fields)
    (hne : sections ≠ []) :
    fieldNamePresent (apply_overrides sections ov) n = true := by
  have hhne : ov.hide_fields ≠ ∅ := Finset.ne_empty_of_mem hhide
  obtain ⟨hwf1, hne1⟩ := hideFields_wf_ne sections ov.hide_fields hhne hne
  rcases List.append_of_mem hmem with ⟨l1, l2, hsplit⟩
  unfold apply_overrides
  rw [hsplit]
  have hfold : applyInserts (hideFields sections ov.hide_fields) (l1 ++ PyVal.dict ies :: l2)
      = applyInserts (insertOne (applyInserts (hideFields sections ov.hide_fields) l1)
          (PyVal.dict ies)) l2 := by
    unfold applyInserts
    rw [List.foldl_append]
    rfl
  rw [hfold]
  obtain ⟨hwf2, hne2⟩ := applyInserts_wf_ne l1 _ hwf1 hne1
  apply markRequired_preserves_presence
  apply applyInserts_preserves_presence
  exact insertOne_adds _ ies nfes av n ha hat hf hn hne2 hwf2

/-- Witness for C10 at a concrete input: the directive inserts a field
named extra after legacy while hide_fields also names extra; the inserted
field survives in the output. -/
theorem C10_witness :
    fieldNamePresent
      (apply_overrides [[("fields", .list [.dict [("name", .str "legacy")]])]]
        ⟨∅, [], {"extra"},
          [.dict [("after", .str "legacy"), ("field", .dict [("name", .str "extra")])]]⟩)
      "extra" = true := by
  exact C10_hidden_inserted_field_survives
    [[("fields", .list [.dict [("name", .str "legacy")]])]]
    ⟨∅, [], {"extra"},
      [.dict [("after", .str "legacy"), ("field", .dict [("name", .str "extra")])]]⟩
    [("after", .str "legacy"), ("field", .dict [("name", .str "extra")])]
    [("name", .str "extra")] (.str "legacy") "extra"
    (by simp) rfl (by decide) rfl rfl (by simp) (by simp)

/-- d.get(k, []) read as a list: the default when absent; a present value
is iterated, so a present non-list would raise or mis-iterate in CPython
(the loaders only see JSON lists there). -/
def pyGetDefList (d : PyDict) (k : String) : List PyVal :=
  match dGet d k with
  | some (.list xs) => xs
  | some _ => []
  | Option.none => []

/-- d.get(k, or-empty) read as dict entries (the .items() loops). -/
def pyGetDefDictEntries (d : PyDict) (k : String) : List (String × PyVal) :=
  match dGet d k with
  | some (.dict es) => es
  | _ => []

/-- The truthy field names of a field list (lines 109-111 etc. of
src/data_loader.py): names.add for every field dict with a truthy name.
Python collects them in a set; only membership (by ==) is ever consumed,
so a list with possible duplicates is an equivalent model. -/
def fieldsNamesOf (fields : List PyVal) : List PyVal :=
  fields.filterMap (fun fld =>
    match fld with
    | .dict fes => if pyTruthy (dGetN fes "name") then some (dGetN fes "name") else Option.none
    | _ => Option.none)

/-- Embedding of _collect_all_field_names from src/data_loader.py lines
106-125: field names of the base sections, of every category pack, and of
the fields introduced by override insert_after directives. -/
def collectAllFieldNames (qdef : PyDict) : List PyVal :=
  ((pyGetDefList qdef "base_sections").flatMap (fun sec =>
    match sec with
    | .dict ses => fieldsNamesOf (pyGetDefList ses "fields")
    | _ => []))
  ++ ((pyGetDefDictEntries qdef "category_packs").flatMap (fun p =>
    match p.2 with
    | .list secs => secs.flatMap (fun sec =>
        match sec with
        | .dict ses => fieldsNamesOf (pyGetDefList ses "fields")
        | _ => [])
    | _ => []))
  ++ ((pyGetDefDictEntries qdef "overrides").flatMap (fun p =>
    match p.2 with
    | .dict oes => (pyGetDefList oes "insert_after").filterMap (fun ins =>
        match ins with
        | .dict ies =>
            (match dGetN ies "field" with
             | .dict fes =>
                 if pyTruthy (dGetN fes "name") then some (dGetN fes "name") else Option.none
             | _ => Option.none)
        | _ => Option.none)
    | _ => []))

/-- The key's payload when it is present and a list (the combined test
"key in cond and isinstance(cond[key], list)" of _each_visible_clause). -/
def clauseKeyList? (es : PyDict) (k : String) : Option (List PyVal) :=
  match dGet es k with
  | some (.list l) => some l
  | _ => Option.none

/-- A clauseKeyList? payload is structurally below its dict. -/
theorem sizeOf_clauseKeyList {es : PyDict} {k : String} {l : List PyVal}
    (h : clauseKeyList? es k = some l) : sizeOf l < 1 + sizeOf es := by
  unfold clauseKeyList? at h
  cases hg : dGet es k with
  | none => rw [hg] at h; exact absurd h (by simp)
  | some v =>
      rw [hg] at h
      cases v with
      | list l2 =>
          injection h with h2
          subst h2
          have := sizeOf_dGet hg
          simp only [PyVal.list.sizeOf_spec] at this
          omega
      | none => exact absurd h (by simp)
      | bool b => exact absurd h (by simp)
      | int m => exact absurd h (by simp)
      | str s => exact absurd h (by simp)
      | dict d => exact absurd h (by simp)

mutual

/-- Embedding of _each_visible_clause from src/data_loader.py lines
128-156: a falsy condition flattens to nothing; a dict with a field key is
one clause; otherwise the first of the keys "and", "or" that is present
with a list payload is flattened recursively (these are NOT the
evaluator's group keys "all"/"any"); any other dict shape is treated as a
single clause; a list is flattened; anything else flattens to nothing. -/
def eachVisibleClause (cond : PyVal) : List PyVal :=
  if pyTruthy cond = false then []
  else
    match cond with
    | .dict es =>
        if hasKey es "field" then [.dict es]
        else
          match h1 : clauseKeyList? es "and" with
          | some l => eachVisibleClauseList l
          | Option.none =>
              match h2 : clauseKeyList? es "or" with
              | some l => eachVisibleClauseList l
              | Option.none => [.dict es]
    | .list l => eachVisibleClauseList l
    | _ => []
termination_by sizeOf cond
decreasing_by
  · simp only [PyVal.dict.sizeOf_spec]; exact sizeOf_clauseKeyList h1
  · simp only [PyVal.dict.sizeOf_spec]; exact sizeOf_clauseKeyList h2
  · simp only [PyVal.list.sizeOf_spec]; omega

/-- Flattening of a list of sub-conditions (out.extend of the source). -/
def eachVisibleClauseList (conds : List PyVal) : List PyVal :=
  match conds with
  | [] => []
  | x :: rest => eachVisibleClause x ++ eachVisibleClauseList rest
termination_by sizeOf conds
decreasing_by
  · simp only [List.cons.sizeOf_spec]; omega
  · simp only [List.cons.sizeOf_spec]; omega

end

/-- A reference resolves: it equals (Python ==) a known field name or one
of the three virtual names. -/
def refKnown (known : List PyVal) (ref : PyVal) : Bool :=
  known.any (fun v => pyEq v ref)
  || (match ref with
      | .str s => s == "__category__" || s == "__make__" || s == "__model__"
      | _ => false)

/-- One clause's reference check of _validate_visible_if_references:
clauses without a truthy field reference are skipped; otherwise the
reference must resolve. -/
def clauseRefOk (known : List PyVal) (clause : PyVal) : Bool :=
  let ref := match clause with
             | .dict ces => dGetN ces "field"
             | _ => .none
  if pyTruthy ref = false then true else refKnown known ref

/-- The reference checks of one field list. -/
def validateFieldClauses (known : List PyVal) (fields : List PyVal) : Bool :=
  fields.all (fun fld =>
    (eachVisibleClause (match fld with
      | .dict fes => dGetN fes "visible_if"
      | _ => .none)).all (clauseRefOk known))

/-- Embedding of _validate_visible_if_references from src/data_loader.py
lines 159-211 as a pass/fail boolean (true = no validation error raised):
base-section clauses and category-pack clauses must resolve against the
collected names or the virtual names; non-dict base sections are skipped,
while a non-list pack or a non-dict pack section is an error. -/
def validateVisibleIfRefs (qdef : PyDict) : Bool :=
  let known := collectAllFieldNames qdef
  ((pyGetDefList qdef "base_sections").all (fun sec =>
    match sec with
    | .dict ses => validateFieldClauses known (pyGetDefList ses "fields")
    | _ => true))
  && ((pyGetDefDictEntries qdef "category_packs").all (fun p =>
    match p.2 with
    | .none => true
    | .list secs => secs.all (fun sec =>
        match sec with
        | .dict ses => validateFieldClauses known (pyGetDefList ses "fields")
        | _ => false)
    | _ => false))

/-- A falsy condition flattens to no clauses. -/
theorem eachVisibleClause_falsy (cond : PyVal) (h : pyTruthy cond = false) :
    eachVisibleClause cond = [] := by
  unfold eachVisibleClause
  simp [h]

/-- A dict condition with no field key and no and/or list payloads is
treated as a single clause (the unknown-dict arm): this is where the
evaluator's all/any groups land, since the flattener only knows the keys
"and" and "or". -/
theorem eachVisibleClause_unknown_dict (es : PyDict) (hne : es ≠ [])
    (hf : hasKey es "field" = false)
    (hand : clauseKeyList? es "and" = Option.none)
    (hor : clauseKeyList? es "or" = Option.none) :
    eachVisibleClause (.dict es) = [.dict es] := by
  have ht : pyTruthy (.dict es) = true := by
    cases es with
    | nil => exact absurd rfl hne
    | cons a l => simp [pyTruthy, List.isEmpty]
  unfold eachVisibleClause
  simp only [ht, Bool.true_eq_false, if_false, hf, Bool.false_eq_true]
  split
  · rename_i l heq
    rw [hand] at heq
    exact absurd heq (by simp)
  · split
    · rename_i l heq
      rw [hor] at heq
      exact absurd heq (by simp)
    · rfl

/-- The failing schema for the reference validator: a base-section field
gated by an all-group whose nested clause references the name ghost,
which no field in the schema defines. -/
def exBadRefSchema : PyDict :=
  [("base_sections", .list [.dict [("key", .str "s1"), ("fields", .list [
      .dict [("name", .str "real_field"), ("type", .str "text")],
      .dict [("name", .str "gated"), ("type", .str "text"),
        ("visible_if", .dict [("all", .list [.dict [("field", .str "ghost"),
          ("op", .str "eq"), ("value", .str "on")]])])]])]]),
   ("category_packs", .dict []),
   ("overrides", .dict [])]

/-- The nested condition of the failing schema. -/
def exBadRefCond : PyVal :=
  .dict [("all", .list [.dict [("field", .str "ghost"),
    ("op", .str "eq"), ("value", .str "on")]])]

/-- C8: the loader's reference validation misses clauses nested inside
all/any groups: the failing schema passes validateVisibleIfRefs even
though its all-nested clause references ghost, a name that is neither a
collected field name nor a virtual field, and the reference is
semantically live (the gated field's visibility depends on the ghost
answer).  The flattener _each_visible_clause only descends into "and" and
"or" keys, which the evaluator's DSL never uses. -/
theorem C8_validator_misses_nested_reference :
    validateVisibleIfRefs exBadRefSchema = true
    ∧ refKnown (collectAllFieldNames exBadRefSchema) (.str "ghost") = false
    ∧ evaluate exBadRefCond [("ghost", .str "on")] Option.none Option.none Option.none = true
    ∧ evaluate exBadRefCond [] Option.none Option.none Option.none = false := by
  have h0 : eachVisibleClause PyVal.none = [] := eachVisibleClause_falsy _ rfl
  have h1 : eachVisibleClause (.dict [("all", .list [.dict [("field", .str "ghost"),
      ("op", .str "eq"), ("value", .str "on")]])])
      = [.dict [("all", .list [.dict [("field", .str "ghost"),
        ("op", .str "eq"), ("value", .str "on")]])]] :=
    eachVisibleClause_unknown_dict _ (by simp) (by decide) rfl rfl
  have hev : ∀ state : PyDict, evaluate exBadRefCond state Option.none Option.none Option.none
      = evaluate (.dict [("field", .str "ghost"), ("op", .str "eq"), ("value", .str "on")])
          state Option.none Option.none Option.none := by
    intro state
    rw [show exBadRefCond = .dict [("all", .list [.dict [("field", .str "ghost"),
      ("op", .str "eq"), ("value", .str "on")]])] from rfl]
    rw [evaluate_all_list [("all", .list [.dict [("field", .str "ghost"),
      ("op", .str "eq"), ("value", .str "on")]])]
      [.dict [("field", .str "ghost"), ("op", .str "eq"), ("value", .str "on")]]
      state Option.none Option.none Option.none (by decide) rfl]
    rw [evalConj_cons, evalConj_nil, Bool.and_true]
    have hc := evaluate_clause [("field", .str "ghost"), ("op", .str "eq"), ("value", .str "on")]
      (injectCtx state Option.none Option.none Option.none)
      Option.none Option.none Option.none (by decide) (by decide) (by decide)
    rw [hc]
    rw [evaluate_clause [("field", .str "ghost"), ("op", .str "eq"), ("value", .str "on")]
      state Option.none Option.none Option.none (by decide) (by decide) (by decide)]
    rfl
  refine ⟨?_, by decide, ?_, ?_⟩
  · simp [validateVisibleIfRefs, validateFieldClauses, clauseRefOk, refKnown, pyGetDefList,
      pyGetDefDictEntries, collectAllFieldNames, fieldsNamesOf, exBadRefSchema, dGetN, dGet,
      hasKey, pyTruthy, pyEq, h0, h1]
  · rw [hev [("ghost", .str "on")]]
    rw [evaluate_clause _ _ _ _ _ (by decide) (by decide) (by decide)]
    decide
  · rw [hev []]
    rw [evaluate_clause _ _ _ _ _ (by decide) (by decide) (by decide)]
    decide
